import Mathlib

/-!
Verification of the BORE-TUI execution core against its specification.

The definitions below are shallow embeddings of the Go sources:
scheduler (internal/process/scheduler.go), slug generation
(internal/git/slug.go), the store operations used by the engine
(internal/db/db.go together with the schema CHECK constraints), the
execution-engine phases (internal/tui/commander_dashboard.go), crash
recovery (internal/app/recovery.go and App.OpenCluster) and the diff
actions (internal/tui/diff_review.go, internal/app/app.go).
-/

namespace Bore

/-! ### Worker scheduler — internal/process/scheduler.go -/

/-- State of `process.Scheduler`: the slot cap `maxSlots`, the counter
`active`, and the FIFO queue of pending waiters.  A waiter is identified by
the one-shot channel it holds, modelled as a natural-number id. -/
structure Scheduler where
  maxSlots : Nat
  active : Nat
  waiters : List Nat
deriving Repr, DecidableEq

/-- `NewScheduler` (scheduler.go:19-26): the requested cap is clamped to at
least 1. -/
def NewScheduler (maxWorkers : Int) : Scheduler :=
  { maxSlots := (if maxWorkers < 1 then 1 else maxWorkers).toNat
    active := 0
    waiters := [] }

/-- Entry of `Acquire` (scheduler.go:30-42): under the lock, if
`active < maxSlots` increment `active` and succeed immediately (`true`);
otherwise append a fresh waiter channel `w` at the tail of the queue
(`false`). -/
def acquireStep (s : Scheduler) (w : Nat) : Scheduler × Bool :=
  if s.active < s.maxSlots then
    ({ s with active := s.active + 1 }, true)
  else
    ({ s with waiters := s.waiters ++ [w] }, false)

/-- `Release` (scheduler.go:72-87): if the waiters queue is non-empty, pop the
head and deliver its token — the slot is handed over, `active` unchanged.
Otherwise decrement `active`, treating a release with `active = 0` as a
defensive no-op. -/
def releaseStep (s : Scheduler) : Scheduler :=
  match s.waiters with
  | _ :: rest => { s with waiters := rest }
  | [] => if s.active = 0 then s else { s with active := s.active - 1 }

/-- Cancellation branch of `Acquire` (scheduler.go:47-67): re-take the lock
and look for our waiter channel in the queue.  If present, remove it and owe
nothing (`false`).  If absent, `Release` already removed it and sent the
token, so the canceller drains the token and performs one `Release` itself
(`true`). -/
def cancelStep (s : Scheduler) (w : Nat) : Scheduler × Bool :=
  if w ∈ s.waiters then
    ({ s with waiters := s.waiters.erase w }, false)
  else
    (releaseStep s, true)

/-- One observable scheduler transition: an `Acquire` arrival, a `Release`,
or the cancellation of a blocked `Acquire`. -/
inductive SchedOp where
  | acq (w : Nat)
  | rel
  | cancel (w : Nat)
deriving Repr, DecidableEq

/-- Effect of one transition on the scheduler state. -/
def schedStep (s : Scheduler) : SchedOp → Scheduler
  | .acq w => (acquireStep s w).1
  | .rel => releaseStep s
  | .cancel w => (cancelStep s w).1

/-- A whole interleaving of scheduler operations. -/
def schedRun (s : Scheduler) (ops : List SchedOp) : Scheduler :=
  ops.foldl schedStep s

/-! ### Branch slugs — internal/git/slug.go -/

/-- ASCII case folding step of `strings.ToLower`.  Only ASCII letters are
relevant to `Slugify`: any character that does not end up in `[a-z0-9]` is
replaced by a hyphen. -/
def goToLowerChar (c : Char) : Char :=
  if 'A' ≤ c ∧ c ≤ 'Z' then Char.ofNat (c.toNat + 32) else c

/-- The character class kept by `Slugify` (slug.go:21). -/
def isSlugKeep (c : Char) : Bool :=
  decide (('a' ≤ c ∧ c ≤ 'z') ∨ ('0' ≤ c ∧ c ≤ '9'))

/-- The hyphen-collapsing loop of `Slugify` (slug.go:32-34): the source
replaces `--` by `-` until no `--` remains, which collapses every hyphen run
to a single hyphen.  Computed here in one right-to-left pass. -/
def collapseDashes : List Char → List Char
  | [] => []
  | c :: rest =>
    match collapseDashes rest with
    | [] => [c]
    | d :: tail => if c = '-' ∧ d = '-' then d :: tail else c :: d :: tail

/-- `strings.Trim(slug, "-")` (slug.go:36). -/
def trimDashes (l : List Char) : List Char :=
  ((l.dropWhile (fun c => c == '-')).reverse.dropWhile (fun c => c == '-')).reverse

/-- `strings.TrimRight(slug, "-")` (slug.go:46). -/
def trimRightDashes (l : List Char) : List Char :=
  (l.reverse.dropWhile (fun c => c == '-')).reverse

/-- `Slugify` (slug.go:15-50): lowercase, map everything outside `[a-z0-9]`
to `-`, collapse hyphen runs, trim, substitute `untitled` for an empty
result, and cap at 50 characters with a final right-trim of hyphens. -/
def Slugify (s : List Char) : List Char :=
  let mapped := (s.map goToLowerChar).map (fun c => if isSlugKeep c then c else '-')
  let slug := trimDashes (collapseDashes mapped)
  if slug = [] then "untitled".data
  else if slug.length > 50 then trimRightDashes (slug.take 50)
  else slug

/-- Whitespace class of `strings.Fields`. -/
def isSpaceChar (c : Char) : Bool :=
  c == ' ' || c == '\t' || c == '\n' || c == '\r' || c == '\x0b' || c == '\x0c'

/-- Helper for `strings.Fields`: split on whitespace, accumulator holds the
current word reversed. -/
def fieldsAux : List Char → List Char → List (List Char)
  | [], acc => if acc = [] then [] else [acc.reverse]
  | c :: rest, acc =>
    if isSpaceChar c then
      if acc = [] then fieldsAux rest [] else acc.reverse :: fieldsAux rest []
    else fieldsAux rest (c :: acc)

/-- `strings.Fields` (slug.go:60): whitespace-separated words. -/
def fields (s : List Char) : List (List Char) := fieldsAux s []

/-- `strings.Join(words, " ")`. -/
def joinSpace : List (List Char) → List Char
  | [] => []
  | [w] => w
  | w :: ws => w ++ ' ' :: joinSpace ws

/-- `MakeExecBranch` (slug.go:56-67):
`bore/{thread-slug}-{taskID}-{short-slug}` with the short slug built from the
first six whitespace-separated words of the title. -/
def MakeExecBranch (threadName : List Char) (taskID : Nat) (taskTitle : List Char) : List Char :=
  let threadSlug := Slugify threadName
  let ws := fields taskTitle
  let ws6 := if ws.length > 6 then ws.take 6 else ws
  let shortSlug := Slugify (joinSpace ws6)
  "bore/".data ++ threadSlug ++ '-' :: Nat.toDigits 10 taskID ++ '-' :: shortSlug

/-- The slug pipeline exactly as the claim words it: lowercasing, mapping
non-`[a-z0-9]` to `-`, collapsing hyphen runs, trimming leading and trailing
hyphens, capping at 50 characters, substituting `untitled` for an empty
result — with no hyphen trim after the cap. -/
def claimSlug (s : List Char) : List Char :=
  let mapped := (s.map goToLowerChar).map (fun c => if isSlugKeep c then c else '-')
  let t := trimDashes (collapseDashes mapped)
  let t2 := t.take 50
  if t2 = [] then "untitled".data else t2

/-- The branch format exactly as the claim words it, built from `claimSlug`. -/
def claimBranch (threadName : List Char) (taskID : Nat) (taskTitle : List Char) : List Char :=
  let ws := fields taskTitle
  let ws6 := if ws.length > 6 then ws.take 6 else ws
  "bore/".data ++ claimSlug threadName ++ '-' :: Nat.toDigits 10 taskID ++ '-' :: claimSlug (joinSpace ws6)

/-- The slug pipeline as amended: after capping at 50 characters, trailing
hyphens exposed by the cut are trimmed as well (`untitled` substitution
phrased on the capped result; for this pipeline the order is immaterial). -/
def amendedSlug (s : List Char) : List Char :=
  let mapped := (s.map goToLowerChar).map (fun c => if isSlugKeep c then c else '-')
  let t := trimDashes (collapseDashes mapped)
  let t2 := trimRightDashes (t.take 50)
  if t2 = [] then "untitled".data else t2

/-- The branch format of the amended claim, built from `amendedSlug`. -/
def amendedBranch (threadName : List Char) (taskID : Nat) (taskTitle : List Char) : List Char :=
  let ws := fields taskTitle
  let ws6 := if ws.length > 6 then ws.take 6 else ws
  "bore/".data ++ amendedSlug threadName ++ '-' :: Nat.toDigits 10 taskID ++ '-' :: amendedSlug (joinSpace ws6)

/-! ### Store rows and engine-facing store operations — internal/db -/

/-- An `executions` row (db/models.go), restricted to the fields the engine
claims touch.  Timestamps are abstract ticks. -/
structure ExecutionRow where
  id : Nat
  taskID : Nat
  clusterID : Nat
  baseBranch : String
  execBranch : String
  worktreePath : String
  status : String
  startedAt : Option Nat
  finishedAt : Option Nat
  updatedAt : Nat
deriving Repr, DecidableEq

/-- A `tasks` row, restricted to id and status. -/
structure TaskRow where
  id : Nat
  status : String
  updatedAt : Nat
deriving Repr, DecidableEq

/-- An `agent_runs` row. -/
structure AgentRunRow where
  executionID : Nat
  agentType : String
  role : String
  prompt : String
  summary : String
  outcome : String
  filesChanged : String
deriving Repr, DecidableEq

/-- An `execution_events` row. -/
structure EventRow where
  executionID : Nat
  level : String
  eventType : String
  message : String
deriving Repr, DecidableEq

/-- An `agent_lessons` row. -/
structure LessonRow where
  executionID : Nat
  agentType : String
  lessonType : String
  content : String
deriving Repr, DecidableEq

/-- The store state visible to the engine. -/
structure DBState where
  execs : List ExecutionRow
  tasks : List TaskRow
  agentRuns : List AgentRunRow
  events : List EventRow
  lessons : List LessonRow
deriving Repr, DecidableEq

/-- `ValidExecutionStatus` / the schema CHECK on `executions.status`. -/
def validExecutionStatus (s : String) : Bool :=
  s == "pending" || s == "review" || s == "running" || s == "diff_review" ||
  s == "completed" || s == "failed" || s == "interrupted"

/-- `ValidTaskStatus` / the schema CHECK on `tasks.status` (same domain). -/
def validTaskStatus (s : String) : Bool := validExecutionStatus s

/-- Schema CHECK on `agent_runs.agent_type`. -/
def validAgentType (s : String) : Bool := s == "boss" || s == "worker"

/-- Schema CHECK on `agent_runs.outcome`. -/
def validOutcome (s : String) : Bool :=
  s == "success" || s == "partial" || s == "failed"

/-- Schema CHECK on `execution_events.level`. -/
def validLevel (s : String) : Bool :=
  s == "debug" || s == "info" || s == "warn" || s == "error"

/-- Schema CHECK on `agent_lessons.lesson_type`. -/
def validLessonType (s : String) : Bool :=
  s == "error" || s == "pattern" || s == "warning" || s == "note"

/-- `DB.UpdateExecutionStatus` (db.go:868-888): set status and `updated_at`
only; `started_at` and `finished_at` are untouched.  An invalid status is
rejected and changes nothing. -/
def updateExecutionStatus (db : DBState) (now : Nat) (id : Nat) (status : String) : DBState :=
  if validExecutionStatus status then
    { db with execs := db.execs.map (fun e =>
        if e.id = id then { e with status := status, updatedAt := now } else e) }
  else db

/-- `DB.SetExecutionStarted` (db.go:891-908): status `running`, stamp
`started_at`. -/
def setExecutionStarted (db : DBState) (now : Nat) (id : Nat) : DBState :=
  { db with execs := db.execs.map (fun e =>
      if e.id = id then { e with status := "running", startedAt := some now, updatedAt := now } else e) }

/-- `DB.SetExecutionFinished` (db.go:911-931): set the final status and stamp
`finished_at`. -/
def setExecutionFinished (db : DBState) (now : Nat) (id : Nat) (status : String) : DBState :=
  if validExecutionStatus status then
    { db with execs := db.execs.map (fun e =>
        if e.id = id then { e with status := status, finishedAt := some now, updatedAt := now } else e) }
  else db

/-- `DB.UpdateTaskStatus` (db.go:677-697). -/
def updateTaskStatus (db : DBState) (now : Nat) (id : Nat) (status : String) : DBState :=
  if validTaskStatus status then
    { db with tasks := db.tasks.map (fun t =>
        if t.id = id then { t with status := status, updatedAt := now } else t) }
  else db

/-- `DB.CreateAgentRun` (db.go:1027-1056) under the schema CHECKs on
`agent_type` and `outcome`: an insert violating a CHECK fails and adds no
row (the engine discards such errors). -/
def createAgentRun (db : DBState) (executionID : Nat) (agentType role prompt summary outcome filesChanged : String) : DBState :=
  if validAgentType agentType && validOutcome outcome then
    { db with agentRuns := db.agentRuns ++
        [{ executionID := executionID, agentType := agentType, role := role
           prompt := prompt, summary := summary, outcome := outcome
           filesChanged := filesChanged }] }
  else db

/-- `DB.CreateEvent` (db.go:981) under the schema CHECK on `level`. -/
def createEvent (db : DBState) (executionID : Nat) (level eventType message : String) : DBState :=
  if validLevel level then
    { db with events := db.events ++
        [{ executionID := executionID, level := level, eventType := eventType
           message := message }] }
  else db

/-- `DB.CreateLesson` (db.go:1118) under the schema CHECK on `lesson_type`. -/
def createLesson (db : DBState) (executionID : Nat) (agentType lessonType content : String) : DBState :=
  if validAgentType agentType && validLessonType lessonType then
    { db with lessons := db.lessons ++
        [{ executionID := executionID, agentType := agentType
           lessonType := lessonType, content := content }] }
  else db

/-- `DB.ListExecutionsByStatus` (db.go:853-865). -/
def listExecutionsByStatus (db : DBState) (clusterID : Nat) (status : String) : List ExecutionRow :=
  db.execs.filter (fun e => e.clusterID == clusterID && e.status == status)

/-- Status of a task row, for stating claims. -/
def taskStatus (db : DBState) (id : Nat) : Option String :=
  (db.tasks.find? (fun t => t.id == id)).map (fun t => t.status)

/-- Status of an execution row, for stating claims. -/
def execStatus (db : DBState) (id : Nat) : Option String :=
  (db.execs.find? (fun e => e.id == id)).map (fun e => e.status)

/-! ### Agent responses — internal/agents/parse.go -/

/-- `agents.WorkerResult` (the fields the engine persists). -/
structure WorkerResultR where
  outcome : String
  summary : String
  filesChanged : List String
deriving Repr, DecidableEq

/-- One lesson item of a boss summary. -/
structure LessonItem where
  lessonType : String
  content : String
deriving Repr, DecidableEq

/-- `agents.BossSummary` (the fields the engine persists). -/
structure BossSummaryR where
  outcome : String
  whatChanged : List String
  lessons : List LessonItem
  filesTouched : List String
deriving Repr, DecidableEq

/-- `agents.BossPlan` (the fields the engine uses). -/
structure BossPlanR where
  steps : List String
  needsWorkers : List String
  estimatedFiles : List String
deriving Repr, DecidableEq

/-- The tagged union produced by `agents.ParseResponse`: one constructor per
`type` tag; payloads kept only for the variants the engine consumes. -/
inductive AgentResponse where
  | clarifications
  | options
  | executionBrief
  | spawnWorkers
  | bossPlan (p : BossPlanR)
  | bossSummary (bs : BossSummaryR)
  | workerResult (wr : WorkerResultR)
deriving Repr, DecidableEq

/-- Result of one CLI invocation as the engine sees it (`process.RunResult`,
restricted to the error and the extracted JSON block). -/
structure RunResultR where
  err : Option String
  jsonBlock : String
deriving Repr, DecidableEq

/-! ### Execution-engine phases — internal/tui/commander_dashboard.go -/

/-- `markFailed` (commander_dashboard.go:1042-1048): finish the execution as
failed; update the task status only when a task row was available. -/
def markFailed (db : DBState) (now : Nat) (execID : Nat) (task : Option TaskRow) : DBState :=
  let db1 := setExecutionFinished db now execID "failed"
  match task with
  | some t => updateTaskStatus db1 now t.id "failed"
  | none => db1

/-- The `GetTask`-failure branch of `startExecution`
(commander_dashboard.go:736-764): the execution was already marked started
and the `execution_start` event written; loading the task fails, so
`markFailed` runs with a nil task. -/
def startExecutionTaskLoadFail (db : DBState) (now : Nat) (execID : Nat) : DBState :=
  let db1 := setExecutionStarted db now execID
  let db2 := createEvent db1 execID "info" "execution_start" "Execution started"
  markFailed db2 now execID none

/-- The `GetTask`-failure branch of `runBossPlan`
(commander_dashboard.go:776-784): the task cannot be loaded, so `markFailed`
runs with a nil task before anything else is written. -/
def runBossPlanTaskLoadFail (db : DBState) (now : Nat) (execID : Nat) : DBState :=
  markFailed db now execID none

/-- Outcome cases of one worker phase as distinguished by `runNextWorker`
(commander_dashboard.go:855-937). -/
inductive WorkerCase where
  | schedErr (msg : String)
  | cliErr (msg : String)
  | noJSON
  | parseErr (msg : String)
  | typeErr
  | ok (wr : WorkerResultR)
deriving Repr, DecidableEq

/-- Store writes of one worker phase, `runNextWorker`
(commander_dashboard.go:855-937): a `worker_start` event, then per case —
scheduler failure: `scheduler_error` event only; CLI error, missing JSON,
parse error: an event plus a failed worker agent run; type mismatch: a
`worker_type_error` event only, no agent run; success: the worker agent run
with the reported outcome plus a `worker_done` event. -/
def runNextWorkerDB (db : DBState) (execID : Nat) (role prompt : String) (c : WorkerCase) : DBState :=
  let db0 := createEvent db execID "info" "worker_start" ("Starting worker: " ++ role)
  match c with
  | .schedErr m => createEvent db0 execID "error" "scheduler_error" m
  | .cliErr m =>
    let db1 := createEvent db0 execID "error" "worker_error" ("Worker " ++ role ++ " failed: " ++ m)
    createAgentRun db1 execID "worker" role prompt ("Failed: " ++ m) "failed" ""
  | .noJSON =>
    let db1 := createEvent db0 execID "warn" "worker_no_json" ("Worker " ++ role ++ " returned no JSON")
    createAgentRun db1 execID "worker" role prompt "No JSON output" "failed" ""
  | .parseErr m =>
    let db1 := createEvent db0 execID "warn" "worker_parse_error" ("Worker " ++ role ++ " parse error: " ++ m)
    createAgentRun db1 execID "worker" role prompt ("Parse error: " ++ m) "failed" ""
  | .typeErr =>
    createEvent db0 execID "warn" "worker_type_error" ("Worker " ++ role ++ " returned unexpected type")
  | .ok wr =>
    let db1 := createAgentRun db0 execID "worker" role prompt wr.summary wr.outcome
      (String.intercalate ", " wr.filesChanged)
    createEvent db1 execID "info" "worker_done" ("Worker " ++ role ++ " finished: " ++ wr.outcome)

/-- Engine phase after the worker loop, as tracked by
`ExecutionViewScreen.execStep`. -/
inductive ExecStep where
  | runningWorkers (i : Nat)
  | bossSummary
deriving Repr, DecidableEq

/-- The `workerDoneMsg` loop of `ExecutionViewScreen.Update`
(commander_dashboard.go:535-563): every worker done message — error or not —
advances `currentWorker`; after the last worker the screen enters the
boss-summary phase. -/
def runWorkersDB (db : DBState) (execID : Nat) : List (String × WorkerCase) → DBState × ExecStep
  | [] => (db, .bossSummary)
  | (role, c) :: rest => runWorkersDB (runNextWorkerDB db execID role "" c) execID rest

/-- Number of persisted worker agent-run rows of one execution. -/
def workerRunCount (db : DBState) (execID : Nat) : Nat :=
  (db.agentRuns.filter (fun r => r.executionID == execID && r.agentType == "worker")).length

/-- Whether one worker case leads to a persisted agent-run row
(`runNextWorkerDB` together with the store's outcome CHECK). -/
def producesRun : WorkerCase → Bool
  | .schedErr _ => false
  | .cliErr _ => true
  | .noJSON => true
  | .parseErr _ => true
  | .typeErr => false
  | .ok wr => validOutcome wr.outcome

/-- The boss-summary phase `runBossSummary` (commander_dashboard.go:940-1040)
from the point the CLI result is available: the `boss_summary` event, the
per-case handling of the CLI result, the final status computation, then
`SetExecutionFinished`, the task-status update and the `execution_done`
event.  `agents.ParseResponse` is abstracted as the `parse` argument.
Returns the updated store and the final status written. -/
def runBossSummaryDB (db : DBState) (now : Nat) (execID taskID : Nat)
    (summaryPrompt : String) (summaryResult : RunResultR)
    (parse : String → Except String AgentResponse) : DBState × String :=
  let dbA := createEvent db execID "info" "boss_summary" "Running Boss summary phase"
  let mid : DBState × String :=
    match summaryResult.err with
    | some e =>
      (createEvent dbA execID "error" "boss_summary_error" ("Boss summary failed: " ++ e),
       "completed")
    | none =>
      if summaryResult.jsonBlock ≠ "" then
        match parse summaryResult.jsonBlock with
        | .ok (.bossSummary bs) =>
          let db1 := createAgentRun dbA execID "boss" "summarizer" summaryPrompt
            (String.intercalate "; " bs.whatChanged) bs.outcome
            (String.intercalate ", " bs.filesTouched)
          let db2 := bs.lessons.foldl
            (fun acc l => createLesson acc execID "boss" l.lessonType l.content) db1
          let st := if bs.outcome = "failed" then "failed"
            else if bs.outcome = "partial" then "diff_review"
            else "diff_review"
          (db2, st)
        | _ => (dbA, "completed")
      else (dbA, "completed")
  let dbB := setExecutionFinished mid.1 now execID mid.2
  let dbC := updateTaskStatus dbB now taskID mid.2
  let dbD := createEvent dbC execID "info" "execution_done"
    ("Execution finished with status: " ++ mid.2)
  (dbD, mid.2)

/-! ### Crash recovery — internal/app/recovery.go and App.OpenCluster -/

/-- `App.recoverInterrupted` (recovery.go:14-38), success path: for every
execution of the cluster stored with status `running`, set its status to
`interrupted` via `UpdateExecutionStatus`. -/
def recoverInterrupted (db : DBState) (now : Nat) (clusterID : Nat) : DBState :=
  (listExecutionsByStatus db clusterID "running").foldl
    (fun acc e => updateExecutionStatus acc now e.id "interrupted") db

/-- Tail of `App.OpenCluster` (src/unnamed/part_006:180-188): a recovery
error is logged at warn level and discarded; opening proceeds and returns
no error either way. -/
def openClusterRecoveryStep (db : DBState) (recovery : Except String DBState) : DBState × Option String :=
  match recovery with
  | .ok db2 => (db2, none)
  | .error _ => (db, none)

/-! ### Diff actions — internal/tui/diff_review.go and internal/app/app.go -/

/-- Git operations issued by the diff actions, for stating what a code path
invokes. -/
inductive GitOp where
  | addAll (dir : String)
  | commit (dir msg : String)
deriving Repr, DecidableEq

/-- `DiffReviewScreen.commitChanges` (diff_review.go:213-237): AddAll, then
Commit with the message `bore-tui: execution #<id> on branch <exec>`, then
`UpdateExecutionStatus(completed)`.  Git failures (the two oracle arguments)
return early without store writes.  Returns the git operations issued, the
store state, and the surfaced error. -/
def commitChangesTUI (db : DBState) (now : Nat) (exec : ExecutionRow)
    (addAllErr commitErr : Option String) : List GitOp × DBState × Option String :=
  match addAllErr with
  | some e => ([.addAll exec.worktreePath], db, some ("git add: " ++ e))
  | none =>
    let msg := "bore-tui: execution #" ++ (Nat.toDigits 10 exec.id).asString
      ++ " on branch " ++ exec.execBranch
    match commitErr with
    | some e => ([.addAll exec.worktreePath, .commit exec.worktreePath msg], db,
        some ("git commit: " ++ e))
    | none => ([.addAll exec.worktreePath, .commit exec.worktreePath msg],
        updateExecutionStatus db now exec.id "completed", none)

/-- `Server.handleDiffCommit` (app.go:435-490): the web commit endpoint —
AddAll, Commit with the request-supplied message (defaulted to
`bore: apply execution changes`), `SetExecutionFinished(completed)` and
`UpdateTaskStatus(completed)`. -/
def handleDiffCommitWeb (db : DBState) (now : Nat) (exec : ExecutionRow) (bodyMessage : String)
    (addAllErr commitErr : Option String) : List GitOp × DBState × Option String :=
  let msg := if bodyMessage = "" then "bore: apply execution changes" else bodyMessage
  match addAllErr with
  | some e => ([.addAll exec.worktreePath], db, some ("web: diff commit: add: " ++ e))
  | none =>
    match commitErr with
    | some e => ([.addAll exec.worktreePath, .commit exec.worktreePath msg], db,
        some ("web: diff commit: commit: " ++ e))
    | none =>
      let db1 := setExecutionFinished db now exec.id "completed"
      let db2 := updateTaskStatus db1 now exec.taskID "completed"
      ([.addAll exec.worktreePath, .commit exec.worktreePath msg], db2, none)

/-- Results of the git steps of the merge action, as an oracle. -/
structure MergeOracle where
  addAllErr : Option String
  commitErr : Option String
  mergeErr : Option String
  removeErr : Option String
  deleteBranchErr : Option String
deriving Repr, DecidableEq

/-- `Server.handleDiffMerge` (app.go:538-599) after the execution row is
loaded: AddAll, Commit, MergeInto(base, exec), RemoveWorktree — each
returning early on failure without touching the store — then best-effort
DeleteBranch and PruneWorktrees, and finally the execution and task statuses
are set to completed. -/
def handleDiffMerge (db : DBState) (now : Nat) (exec : ExecutionRow) (g : MergeOracle) :
    DBState × Option String :=
  match g.addAllErr with
  | some e => (db, some ("web: diff merge: add: " ++ e))
  | none =>
  match g.commitErr with
  | some e => (db, some ("web: diff merge: commit: " ++ e))
  | none =>
  match g.mergeErr with
  | some e => (db, some ("web: diff merge: merge: " ++ e))
  | none =>
  match g.removeErr with
  | some e => (db, some ("web: diff merge: remove worktree: " ++ e))
  | none =>
    let db1 := updateExecutionStatus db now exec.id "completed"
    let db2 := updateTaskStatus db1 now exec.taskID "completed"
    (db2, none)

/-! ### JSON validity — a model of `encoding/json`'s `Valid` scanner

`extractLastJSON` (scheduler.go:112-167) validates each candidate slice with
`json.Valid`, the Go standard library's streaming JSON scanner.  The model
below is that scanner as a character automaton over the JSON grammar:
values, objects, arrays, strings with escapes, numbers and literals, with
interspersed whitespace. -/

/-- Whitespace accepted between JSON tokens. -/
def isJSONWS (c : Char) : Bool :=
  c == ' ' || c == '\t' || c == '\n' || c == '\r'

/-- Decimal digit. -/
def isDigit (c : Char) : Bool := decide ('0' ≤ c ∧ c ≤ '9')

/-- Nonzero decimal digit. -/
def isDigit19 (c : Char) : Bool := decide ('1' ≤ c ∧ c ≤ '9')

/-- Hexadecimal digit, for string escapes. -/
def isHexDigit (c : Char) : Bool :=
  isDigit c || decide ('a' ≤ c ∧ c ≤ 'f') || decide ('A' ≤ c ∧ c ≤ 'F')

/-- A container frame on the scanner stack. -/
inductive JFrame where
  | obj
  | arr
deriving Repr, DecidableEq

/-- Sub-states of the number automaton. -/
inductive JNum where
  | neg
  | zero
  | intg
  | dot
  | frac
  | e
  | eSign
  | expn
deriving Repr, DecidableEq

/-- Number sub-states at which a number may end. -/
def jnumAccept : JNum → Bool
  | .zero => true
  | .intg => true
  | .frac => true
  | .expn => true
  | _ => false

/-- Scanner mode: what the next character may be. -/
inductive JMode where
  | val
  | arrFirst
  | objFirst
  | objKey
  | afterKey
  | afterVal
  | str (isKey : Bool)
  | strEsc (isKey : Bool)
  | strEscU (isKey : Bool) (k : Nat)
  | lit (rest : List Char)
  | num (ns : JNum)
deriving Repr, DecidableEq

/-- Scanner state: current mode plus the stack of open containers. -/
structure JState where
  mode : JMode
  stack : List JFrame
deriving Repr, DecidableEq

instance : Inhabited JState := ⟨⟨.val, []⟩⟩

/-- Dispatch of a character right after a completed value: whitespace, a
comma continuing the enclosing container, or the container's closer. -/
def stepAfterVal (stack : List JFrame) (c : Char) : Option JState :=
  if isJSONWS c then some ⟨.afterVal, stack⟩
  else if c == ',' then
    match stack with
    | .obj :: _ => some ⟨.objKey, stack⟩
    | .arr :: _ => some ⟨.val, stack⟩
    | [] => none
  else if c == '}' then
    match stack with
    | .obj :: rest => some ⟨.afterVal, rest⟩
    | _ => none
  else if c == ']' then
    match stack with
    | .arr :: rest => some ⟨.afterVal, rest⟩
    | _ => none
  else none

/-- Dispatch of the first character of a value. -/
def stepValStart (stack : List JFrame) (c : Char) : Option JState :=
  if c == '"' then some ⟨.str false, stack⟩
  else if c == '{' then some ⟨.objFirst, .obj :: stack⟩
  else if c == '[' then some ⟨.arrFirst, .arr :: stack⟩
  else if c == 't' then some ⟨.lit "rue".data, stack⟩
  else if c == 'f' then some ⟨.lit "alse".data, stack⟩
  else if c == 'n' then some ⟨.lit "ull".data, stack⟩
  else if c == '-' then some ⟨.num .neg, stack⟩
  else if c == '0' then some ⟨.num .zero, stack⟩
  else if isDigit19 c then some ⟨.num .intg, stack⟩
  else none

/-- One transition of the JSON scanner; `none` rejects the input. -/
def jsonStep (st : JState) (c : Char) : Option JState :=
  match st.mode with
  | .val =>
    if isJSONWS c then some st else stepValStart st.stack c
  | .arrFirst =>
    if isJSONWS c then some st
    else if c == ']' then
      match st.stack with
      | .arr :: rest => some ⟨.afterVal, rest⟩
      | _ => none
    else stepValStart st.stack c
  | .objFirst =>
    if isJSONWS c then some st
    else if c == '"' then some ⟨.str true, st.stack⟩
    else if c == '}' then
      match st.stack with
      | .obj :: rest => some ⟨.afterVal, rest⟩
      | _ => none
    else none
  | .objKey =>
    if isJSONWS c then some st
    else if c == '"' then some ⟨.str true, st.stack⟩
    else none
  | .afterKey =>
    if isJSONWS c then some st
    else if c == ':' then some ⟨.val, st.stack⟩
    else none
  | .afterVal => stepAfterVal st.stack c
  | .str isKey =>
    if c == '"' then some ⟨if isKey then .afterKey else .afterVal, st.stack⟩
    else if c == '\\' then some ⟨.strEsc isKey, st.stack⟩
    else if c.toNat < 32 then none
    else some st
  | .strEsc isKey =>
    if c == '"' || c == '\\' || c == '/' || c == 'b' || c == 'f' || c == 'n' || c == 'r' || c == 't'
    then some ⟨.str isKey, st.stack⟩
    else if c == 'u' then some ⟨.strEscU isKey 4, st.stack⟩
    else none
  | .strEscU isKey k =>
    if isHexDigit c then
      match k with
      | 0 => none
      | 1 => some ⟨.str isKey, st.stack⟩
      | k2 + 2 => some ⟨.strEscU isKey (k2 + 1), st.stack⟩
    else none
  | .lit rest =>
    match rest with
    | [] => none
    | r :: rs =>
      if c == r then
        if rs = [] then some ⟨.afterVal, st.stack⟩ else some ⟨.lit rs, st.stack⟩
      else none
  | .num ns =>
    match ns with
    | .neg =>
      if c == '0' then some ⟨.num .zero, st.stack⟩
      else if isDigit19 c then some ⟨.num .intg, st.stack⟩
      else none
    | .zero =>
      if c == '.' then some ⟨.num .dot, st.stack⟩
      else if c == 'e' || c == 'E' then some ⟨.num .e, st.stack⟩
      else stepAfterVal st.stack c
    | .intg =>
      if isDigit c then some ⟨.num .intg, st.stack⟩
      else if c == '.' then some ⟨.num .dot, st.stack⟩
      else if c == 'e' || c == 'E' then some ⟨.num .e, st.stack⟩
      else stepAfterVal st.stack c
    | .dot =>
      if isDigit c then some ⟨.num .frac, st.stack⟩ else none
    | .frac =>
      if isDigit c then some ⟨.num .frac, st.stack⟩
      else if c == 'e' || c == 'E' then some ⟨.num .e, st.stack⟩
      else stepAfterVal st.stack c
    | .e =>
      if c == '+' || c == '-' then some ⟨.num .eSign, st.stack⟩
      else if isDigit c then some ⟨.num .expn, st.stack⟩
      else none
    | .eSign =>
      if isDigit c then some ⟨.num .expn, st.stack⟩ else none
    | .expn =>
      if isDigit c then some ⟨.num .expn, st.stack⟩
      else stepAfterVal st.stack c

/-- The scanner's initial state. -/
def jinit : JState := ⟨.val, []⟩

/-- Run the scanner over a string from a given state. -/
def jsonRunFrom (st : JState) (l : List Char) : Option JState :=
  l.foldl (fun o c => Option.bind o (fun s => jsonStep s c)) (some st)

/-- Accepting final states: stack empty, after a complete value (or at the
end of a number that may end). -/
def jsonAccept (st : JState) : Bool :=
  decide (st.stack = []) &&
    (match st.mode with
     | .afterVal => true
     | .num ns => jnumAccept ns
     | _ => false)

/-- The model of `json.Valid`. -/
def jsonValid (s : List Char) : Bool :=
  match jsonRunFrom jinit s with
  | some st => jsonAccept st
  | none => false

/-! ### The JSON extractor — internal/process/scheduler.go -/

/-- Length of the run of consecutive backslashes immediately before `pos`. -/
def backslashRun (text : List Char) : Nat → Nat
  | 0 => 0
  | p + 1 => if text.getD p ' ' == '\\' then backslashRun text p + 1 else 0

/-- `isEscaped` (scheduler.go:171-177): the character at `pos` is preceded
by an odd number of backslashes. -/
def isEscaped (text : List Char) (pos : Nat) : Bool :=
  backslashRun text pos % 2 != 0

/-- Result of processing one character of the backward scan: a candidate
start was found, or the scan continues with updated depth and string flag. -/
inductive ScanRes where
  | hit
  | next (depth : Int) (inString : Bool)
deriving Repr, DecidableEq

/-- One iteration of the inner backward loop of `extractLastJSON`
(scheduler.go:133-163): inside a string, an unescaped quote leaves it; an
unescaped quote enters one; otherwise the depth is adjusted on the closer
and opener characters and a zero depth yields the candidate start. -/
def scanCharStep (text : List Char) (closeC openC : Char) (i : Nat)
    (depth : Int) (inString : Bool) : ScanRes :=
  let ch := text.getD i ' '
  if inString then
    if ch == '"' && !isEscaped text i then .next depth false else .next depth true
  else if ch == '"' && !isEscaped text i then .next depth true
  else
    let depth2 := if ch == closeC then depth + 1 else if ch == openC then depth - 1 else depth
    if depth2 == 0 then .hit else .next depth2 false

/-- The inner backward loop of `extractLastJSON`, walking from index `i`
down to 0; returns the candidate start index, if the depth returns to
zero. -/
def scanBack (text : List Char) (closeC openC : Char) : Nat → Int → Bool → Option Nat
  | 0, depth, inString =>
    match scanCharStep text closeC openC 0 depth inString with
    | .hit => some 0
    | .next _ _ => none
  | i + 1, depth, inString =>
    match scanCharStep text closeC openC (i + 1) depth inString with
    | .hit => some (i + 1)
    | .next d s => scanBack text closeC openC i d s

/-- The slice `text[i : e+1]`. -/
def sliceOf (text : List Char) (i e : Nat) : List Char :=
  (text.drop i).take (e + 1 - i)

/-- One iteration of the outer loop of `extractLastJSON`
(scheduler.go:117-164): at a closing delimiter, scan backward for the
matching opener and validate the candidate slice. -/
def tryExtractAt (text : List Char) (e : Nat) : Option (List Char) :=
  let c := text.getD e ' '
  if c == '}' || c == ']' then
    let openC := if c == '}' then '{' else '['
    match scanBack text c openC e 0 false with
    | some i =>
      let candidate := sliceOf text i e
      if jsonValid candidate then some candidate else none
    | none => none
  else none

/-- The outer loop of `extractLastJSON`, trying each closing delimiter from
index `e` leftward. -/
def extractLastJSONAux (text : List Char) : Nat → List Char
  | 0 => (tryExtractAt text 0).getD []
  | e + 1 =>
    match tryExtractAt text (e + 1) with
    | some cand => cand
    | none => extractLastJSONAux text e

/-- `extractLastJSON` (scheduler.go:112-167). -/
def extractLastJSON (text : List Char) : List Char :=
  match text.length with
  | 0 => []
  | n + 1 => extractLastJSONAux text n

/-- A balanced JSON object or array: valid JSON delimited by its braces or
brackets, with no surrounding whitespace. -/
def isJSONBlock (j : List Char) : Bool :=
  jsonValid j &&
    ((j.head? == some '{' && j.getLast? == some '}')
     || (j.head? == some '[' && j.getLast? == some ']'))

/-- Whether some contiguous slice of `s` is a balanced JSON object or
array. -/
def containsJSONBlock (s : List Char) : Bool :=
  (List.range (s.length + 1)).any (fun i =>
    (List.range (s.length + 1)).any (fun e =>
      decide (i < e) && isJSONBlock ((s.drop i).take (e - i))))

/-- Forward scanner state after consuming the first `p` characters of `j`
(junk default when the run has failed — the proofs only use it where the
run is known to succeed). -/
def stAt (j : List Char) (p : Nat) : JState :=
  (jsonRunFrom jinit (j.take p)).getD jinit

/-- Whether a mode is inside a string literal. -/
def inStrMode : JMode → Bool
  | .str _ => true
  | .strEsc _ => true
  | .strEscU _ _ => true
  | _ => false

/-- The literal tails that can actually occur in a scanner run (suffixes of
`rue`, `alse`, `ull`). -/
def goodLit (rest : List Char) : Bool :=
  decide (rest = "rue".data ∨ rest = "ue".data ∨ rest = "e".data
    ∨ rest = "alse".data ∨ rest = "lse".data ∨ rest = "se".data
    ∨ rest = "ull".data ∨ rest = "ll".data ∨ rest = "l".data)

/-- Modes reachable from the initial state (constrains the free payload of
`lit`). -/
def goodMode : JMode → Bool
  | .lit rest => goodLit rest
  | _ => true

/-- The facts about one scanner transition that the backward-scan
correspondence needs: how the stack changes per character class, how string
modes begin and end, and how escape states arise. -/
def StepFacts (mo : JMode) (stk : List JFrame) (c : Char) (st2 : JState) : Prop :=
  (inStrMode mo = false → c ≠ '"' →
    ((c = '{' → st2.stack = .obj :: stk)
     ∧ (c = '[' → st2.stack = .arr :: stk)
     ∧ (c = '}' → stk = .obj :: st2.stack ∧ st2.mode = .afterVal)
     ∧ (c = ']' → stk = .arr :: st2.stack ∧ st2.mode = .afterVal)
     ∧ (c ≠ '{' → c ≠ '[' → c ≠ '}' → c ≠ ']' → st2.stack = stk)
     ∧ inStrMode st2.mode = false))
  ∧ (inStrMode mo = false → c = '"' → inStrMode st2.mode = true ∧ st2.stack = stk)
  ∧ (inStrMode mo = true → st2.stack = stk ∧
      ((c = '"' ∧ (∃ k, mo = .str k) ∧ inStrMode st2.mode = false)
       ∨ (c = '"' ∧ (∃ k, mo = .strEsc k) ∧ inStrMode st2.mode = true)
       ∨ (c ≠ '"' ∧ inStrMode st2.mode = true)))
  ∧ (∀ k, st2.mode = .strEsc k → mo = .str k ∧ c = '\\')
  ∧ (∀ k, st2.mode = .str k → c = '\\' → mo = .strEsc k)
  ∧ (c = '\\' → inStrMode st2.mode = true)

/-- The two bracket orientations the backward scan can search for: the
closer, its matching opener, and the container frame they delimit. -/
def BracketPair (closeC openC : Char) (T : JFrame) : Prop :=
  (closeC = '}' ∧ openC = '{' ∧ T = .obj) ∨ (closeC = ']' ∧ openC = '[' ∧ T = .arr)

/-! ### Concrete sample states used by counterexamples and witnesses -/

/-- An empty store. -/
def db0 : DBState :=
  { execs := [], tasks := [], agentRuns := [], events := [], lessons := [] }

/-- A sample execution row in diff review. -/
def exec7 : ExecutionRow :=
  { id := 3, taskID := 5, clusterID := 1, baseBranch := "main"
    execBranch := "bore/t-3-fix", worktreePath := "wt", status := "diff_review"
    startedAt := some 1, finishedAt := some 2, updatedAt := 2 }

/-- A store holding `exec7` and its task, both in diff review. -/
def db7 : DBState :=
  { execs := [exec7]
    tasks := [{ id := 5, status := "diff_review", updatedAt := 2 }]
    agentRuns := [], events := [], lessons := [] }

/-- A store with two running executions and one completed one, in cluster 1. -/
def db6 : DBState :=
  { execs :=
      [{ id := 10, taskID := 1, clusterID := 1, baseBranch := "main"
         execBranch := "bore/a", worktreePath := "w1", status := "running"
         startedAt := some 1, finishedAt := none, updatedAt := 1 },
       { id := 11, taskID := 2, clusterID := 1, baseBranch := "main"
         execBranch := "bore/b", worktreePath := "w2", status := "running"
         startedAt := some 2, finishedAt := none, updatedAt := 2 },
       { id := 12, taskID := 3, clusterID := 1, baseBranch := "main"
         execBranch := "bore/c", worktreePath := "w3", status := "completed"
         startedAt := some 3, finishedAt := some 4, updatedAt := 4 }]
    tasks := [{ id := 1, status := "running", updatedAt := 1 }]
    agentRuns := [{ executionID := 12, agentType := "boss", role := "planner"
                    prompt := "p", summary := "s", outcome := "success", filesChanged := "" }]
    events := [], lessons := [] }

/-! ## Theorems -/

/-! ### Shared frame lemmas about the store operations -/

theorem updateExecutionStatus_frame (db : DBState) (now i : Nat) (st : String) :
    (updateExecutionStatus db now i st).tasks = db.tasks
    ∧ (updateExecutionStatus db now i st).agentRuns = db.agentRuns
    ∧ (updateExecutionStatus db now i st).events = db.events
    ∧ (updateExecutionStatus db now i st).lessons = db.lessons := by
  unfold updateExecutionStatus; split <;> exact ⟨rfl, rfl, rfl, rfl⟩

theorem createEvent_frame (db : DBState) (i : Nat) (l t m : String) :
    (createEvent db i l t m).execs = db.execs
    ∧ (createEvent db i l t m).tasks = db.tasks
    ∧ (createEvent db i l t m).agentRuns = db.agentRuns
    ∧ (createEvent db i l t m).lessons = db.lessons := by
  unfold createEvent; split <;> exact ⟨rfl, rfl, rfl, rfl⟩

theorem createAgentRun_frame (db : DBState) (i : Nat) (a r p s o f : String) :
    (createAgentRun db i a r p s o f).execs = db.execs
    ∧ (createAgentRun db i a r p s o f).tasks = db.tasks
    ∧ (createAgentRun db i a r p s o f).events = db.events
    ∧ (createAgentRun db i a r p s o f).lessons = db.lessons := by
  unfold createAgentRun; split <;> exact ⟨rfl, rfl, rfl, rfl⟩

theorem createLesson_frame (db : DBState) (i : Nat) (a t c : String) :
    (createLesson db i a t c).execs = db.execs
    ∧ (createLesson db i a t c).tasks = db.tasks
    ∧ (createLesson db i a t c).agentRuns = db.agentRuns
    ∧ (createLesson db i a t c).events = db.events := by
  unfold createLesson; split <;> exact ⟨rfl, rfl, rfl, rfl⟩

theorem updateTaskStatus_frame (db : DBState) (now i : Nat) (st : String) :
    (updateTaskStatus db now i st).execs = db.execs
    ∧ (updateTaskStatus db now i st).agentRuns = db.agentRuns
    ∧ (updateTaskStatus db now i st).events = db.events
    ∧ (updateTaskStatus db now i st).lessons = db.lessons := by
  unfold updateTaskStatus; split <;> exact ⟨rfl, rfl, rfl, rfl⟩

theorem setExecutionFinished_execs (db : DBState) (now i : Nat) (st : String)
    (h : validExecutionStatus st = true) :
    (setExecutionFinished db now i st).execs = db.execs.map (fun e =>
      if e.id = i then { e with status := st, finishedAt := some now, updatedAt := now } else e) := by
  unfold setExecutionFinished; rw [if_pos h]

theorem setExecutionStarted_execs (db : DBState) (now i : Nat) :
    (setExecutionStarted db now i).execs = db.execs.map (fun e =>
      if e.id = i then { e with status := "running", startedAt := some now, updatedAt := now } else e) :=
  rfl

theorem updateExecutionStatus_execs (db : DBState) (now i : Nat) (st : String)
    (h : validExecutionStatus st = true) :
    (updateExecutionStatus db now i st).execs = db.execs.map (fun e =>
      if e.id = i then { e with status := st, updatedAt := now } else e) := by
  unfold updateExecutionStatus; rw [if_pos h]

/-! ### Scheduler invariants -/

theorem releaseStep_maxSlots (s : Scheduler) : (releaseStep s).maxSlots = s.maxSlots := by
  rcases s with ⟨m, a, w⟩
  cases w with
  | nil => by_cases h : a = 0 <;> simp [releaseStep, h]
  | cons x xs => simp [releaseStep]

theorem releaseStep_active_le (s : Scheduler) (h : s.active ≤ s.maxSlots) :
    (releaseStep s).active ≤ s.maxSlots := by
  rcases s with ⟨m, a, w⟩
  simp only at h
  cases w with
  | nil =>
    by_cases h0 : a = 0
    · simp [releaseStep, h0]
    · simp [releaseStep, h0]
      omega
  | cons x xs => simpa [releaseStep] using h

theorem acquireStep_maxSlots (s : Scheduler) (w : Nat) :
    ((acquireStep s w).1).maxSlots = s.maxSlots := by
  unfold acquireStep; split <;> rfl

theorem cancelStep_maxSlots (s : Scheduler) (w : Nat) :
    ((cancelStep s w).1).maxSlots = s.maxSlots := by
  unfold cancelStep
  split
  · rfl
  · exact releaseStep_maxSlots s

theorem schedStep_maxSlots (s : Scheduler) (op : SchedOp) :
    (schedStep s op).maxSlots = s.maxSlots := by
  cases op with
  | acq w => exact acquireStep_maxSlots s w
  | rel => exact releaseStep_maxSlots s
  | cancel w => exact cancelStep_maxSlots s w

theorem acquireStep_active_le (s : Scheduler) (w : Nat) (h : s.active ≤ s.maxSlots) :
    ((acquireStep s w).1).active ≤ s.maxSlots := by
  unfold acquireStep
  split
  · next hlt => simpa using hlt
  · simpa using h

theorem cancelStep_active_le (s : Scheduler) (w : Nat) (h : s.active ≤ s.maxSlots) :
    ((cancelStep s w).1).active ≤ s.maxSlots := by
  unfold cancelStep
  split
  · simpa using h
  · exact releaseStep_active_le s h

theorem schedStep_active_le (s : Scheduler) (op : SchedOp) (h : s.active ≤ s.maxSlots) :
    (schedStep s op).active ≤ s.maxSlots := by
  cases op with
  | acq w => exact acquireStep_active_le s w h
  | rel => exact releaseStep_active_le s h
  | cancel w => exact cancelStep_active_le s w h

theorem schedRun_inv (ops : List SchedOp) :
    ∀ s : Scheduler, s.active ≤ s.maxSlots →
      (schedRun s ops).active ≤ (schedRun s ops).maxSlots := by
  induction ops with
  | nil => intro s h; simpa [schedRun] using h
  | cons op rest ih =>
    intro s h
    have h1 : (schedStep s op).active ≤ (schedStep s op).maxSlots := by
      rw [schedStep_maxSlots]; exact schedStep_active_le s op h
    simpa [schedRun] using ih (schedStep s op) h1

theorem schedRun_maxSlots (ops : List SchedOp) :
    ∀ s : Scheduler, (schedRun s ops).maxSlots = s.maxSlots := by
  induction ops with
  | nil => intro s; rfl
  | cons op rest ih =>
    intro s
    calc (schedRun (schedStep s op) rest).maxSlots = (schedStep s op).maxSlots := ih _
    _ = s.maxSlots := schedStep_maxSlots s op

/-- C2: for a scheduler built by `NewScheduler` (cap clamped to at least 1),
`active` never exceeds `maxSlots` along any interleaving of acquires,
releases and cancellations; a release that hands the slot to a queued waiter
leaves `active` unchanged; and a release with `active = 0` and no waiters is
a no-op. -/
theorem scheduler_never_exceeds_cap (maxWorkers : Int) :
    1 ≤ (NewScheduler maxWorkers).maxSlots
    ∧ (∀ ops : List SchedOp,
        (schedRun (NewScheduler maxWorkers) ops).active ≤ (NewScheduler maxWorkers).maxSlots)
    ∧ (∀ s : Scheduler, s.waiters ≠ [] → (releaseStep s).active = s.active)
    ∧ (∀ s : Scheduler, s.active = 0 → s.waiters = [] → releaseStep s = s) := by
  refine ⟨?_, ?_, ?_, ?_⟩
  · have hms : (NewScheduler maxWorkers).maxSlots
        = (if maxWorkers < 1 then (1 : Int) else maxWorkers).toNat := rfl
    rw [hms]; split <;> omega
  · intro ops
    have h0 : (NewScheduler maxWorkers).active ≤ (NewScheduler maxWorkers).maxSlots := by
      simp [NewScheduler]
    have := schedRun_inv ops (NewScheduler maxWorkers) h0
    rwa [schedRun_maxSlots] at this
  · intro s hw
    rcases s with ⟨m, a, w⟩
    cases w with
    | nil => exact absurd rfl hw
    | cons x xs => simp [releaseStep]
  · intro s h0 hw
    rcases s with ⟨m, a, w⟩
    simp only at h0 hw
    subst h0; subst hw
    simp [releaseStep]

theorem scheduler_never_exceeds_cap_witness :
    (schedRun (NewScheduler 2) [.acq 0, .acq 1, .acq 2, .rel, .cancel 2]).active
      ≤ (NewScheduler 2).maxSlots
    ∧ (releaseStep ⟨2, 2, [7]⟩).active = (⟨2, 2, [7]⟩ : Scheduler).active
    ∧ releaseStep ⟨2, 0, []⟩ = (⟨2, 0, []⟩ : Scheduler) :=
  ⟨(scheduler_never_exceeds_cap 2).2.1 _,
   (scheduler_never_exceeds_cap 2).2.2.1 _ (by decide),
   (scheduler_never_exceeds_cap 2).2.2.2 _ rfl rfl⟩

/-- C3: when a blocked `Acquire` is cancelled, exactly one of two outcomes
holds — the waiter was still queued, in which case it is removed, `active` is
untouched, and no `Release` is owed; or it had already been granted the slot,
in which case exactly one `Release` is performed.  Either way the `active`
counter stays within the cap. -/
theorem scheduler_cancel_dichotomy (s : Scheduler) (w : Nat) :
    ((w ∈ s.waiters ∧ (cancelStep s w).2 = false ∧
        ((cancelStep s w).1).active = s.active ∧
        (cancelStep s w).1 = { s with waiters := s.waiters.erase w })
      ∨ (w ∉ s.waiters ∧ (cancelStep s w).2 = true ∧
        (cancelStep s w).1 = releaseStep s))
    ∧ (s.active ≤ s.maxSlots →
        ((cancelStep s w).1).active ≤ ((cancelStep s w).1).maxSlots) := by
  constructor
  · by_cases h : w ∈ s.waiters
    · left; refine ⟨h, ?_, ?_, ?_⟩ <;> simp [cancelStep, h]
    · right; refine ⟨h, ?_, ?_⟩ <;> simp [cancelStep, h]
  · intro h
    exact schedStep_active_le s (.cancel w) h |>.trans_eq (schedStep_maxSlots s (.cancel w)).symm

theorem scheduler_cancel_dichotomy_witness :
    ((cancelStep ⟨1, 1, [5]⟩ 5).1).active ≤ ((cancelStep ⟨1, 1, [5]⟩ 5).1).maxSlots :=
  (scheduler_cancel_dichotomy ⟨1, 1, [5]⟩ 5).2 (by decide)

/-! ### C10 — task-load failure marks the execution failed, not the task -/

/-- C10: when the start phase or the boss-plan phase fails to load the task
row, the execution is finished as failed with `finished_at` stamped, and the
task rows are left entirely unchanged. -/
theorem taskLoadFailure_frames_task (db : DBState) (now execID : Nat) :
    (runBossPlanTaskLoadFail db now execID).tasks = db.tasks
    ∧ (runBossPlanTaskLoadFail db now execID).execs = db.execs.map (fun e =>
        if e.id = execID then { e with status := "failed", finishedAt := some now, updatedAt := now } else e)
    ∧ (startExecutionTaskLoadFail db now execID).tasks = db.tasks
    ∧ (startExecutionTaskLoadFail db now execID).execs = db.execs.map (fun e =>
        if e.id = execID
        then { e with status := "failed", startedAt := some now, finishedAt := some now, updatedAt := now }
        else e) := by
  have hval : validExecutionStatus "failed" = true := by decide
  refine ⟨?_, ?_, ?_, ?_⟩
  · show (setExecutionFinished db now execID "failed").tasks = db.tasks
    unfold setExecutionFinished; rw [if_pos hval]
  · show (setExecutionFinished db now execID "failed").execs = _
    rw [setExecutionFinished_execs db now execID "failed" hval]
  · show (setExecutionFinished _ now execID "failed").tasks = db.tasks
    unfold setExecutionFinished; rw [if_pos hval]
    show (createEvent _ _ _ _ _).tasks = db.tasks
    rw [(createEvent_frame _ _ _ _ _).2.1]
    rfl
  · show (setExecutionFinished (createEvent (setExecutionStarted db now execID)
        execID "info" "execution_start" "Execution started") now execID "failed").execs = _
    rw [setExecutionFinished_execs _ now execID "failed" hval,
      (createEvent_frame _ _ _ _ _).1, setExecutionStarted_execs, List.map_map]
    apply List.map_congr_left
    intro e _
    by_cases h : e.id = execID <;> simp [Function.comp, h]

/-! ### C7 — the commit-only diff action -/

/-- C7 counterexample: on a store whose execution and task are both in diff
review, the TUI commit action commits with the claimed message and marks the
execution completed, but leaves the task's status unchanged at
`diff_review`, so the claim that both statuses end up completed is false. -/
theorem commitOnly_task_status_counterexample :
    (commitChangesTUI db7 9 exec7 none none).1 =
      [GitOp.addAll "wt", GitOp.commit "wt" "bore-tui: execution #3 on branch bore/t-3-fix"]
    ∧ execStatus (commitChangesTUI db7 9 exec7 none none).2.1 3 = some "completed"
    ∧ taskStatus (commitChangesTUI db7 9 exec7 none none).2.1 5 = some "diff_review"
    ∧ some "diff_review" ≠ some "completed" := by
  refine ⟨by decide, by decide, by decide, by decide⟩

/-- C7 as amended: the TUI commit action performs AddAll then Commit with the
message `bore-tui: execution #<id> on branch <exec>` and marks the execution
completed, leaving every task row unchanged; the web commit endpoint marks
both the execution (finished) and the task completed, but commits with the
request message, defaulted to `bore: apply execution changes`. -/
theorem commitOnly_behavior (db : DBState) (now : Nat) (exec : ExecutionRow) :
    (commitChangesTUI db now exec none none).1 =
      [GitOp.addAll exec.worktreePath,
       GitOp.commit exec.worktreePath
         ("bore-tui: execution #" ++ (Nat.toDigits 10 exec.id).asString
           ++ " on branch " ++ exec.execBranch)]
    ∧ (commitChangesTUI db now exec none none).2.1.tasks = db.tasks
    ∧ (commitChangesTUI db now exec none none).2.1 =
        updateExecutionStatus db now exec.id "completed"
    ∧ (commitChangesTUI db now exec none none).2.2 = none
    ∧ (handleDiffCommitWeb db now exec "" none none).1 =
        [GitOp.addAll exec.worktreePath,
         GitOp.commit exec.worktreePath "bore: apply execution changes"]
    ∧ (handleDiffCommitWeb db now exec "" none none).2.1 =
        updateTaskStatus (setExecutionFinished db now exec.id "completed") now exec.taskID "completed"
    ∧ (handleDiffCommitWeb db now exec "" none none).2.2 = none := by
  refine ⟨rfl, ?_, rfl, rfl, rfl, rfl, rfl⟩
  exact (updateExecutionStatus_frame db now exec.id "completed").1

/-! ### C8 — merge atomicity -/

/-- C8: in the merge diff action, a failure of AddAll, Commit or MergeInto
leaves the store untouched and surfaces the error; the store is modified
only when every git step through the worktree removal succeeded, and then
the modification is exactly the two completed-status updates. -/
theorem diffMerge_atomic (db : DBState) (now : Nat) (exec : ExecutionRow) (g : MergeOracle) :
    (g.addAllErr ≠ none ∨ g.commitErr ≠ none ∨ g.mergeErr ≠ none →
      (handleDiffMerge db now exec g).1 = db ∧ (handleDiffMerge db now exec g).2 ≠ none)
    ∧ ((handleDiffMerge db now exec g).1 ≠ db →
      g.addAllErr = none ∧ g.commitErr = none ∧ g.mergeErr = none ∧ g.removeErr = none ∧
      (handleDiffMerge db now exec g).1 =
        updateTaskStatus (updateExecutionStatus db now exec.id "completed") now exec.taskID "completed") := by
  rcases g with ⟨oa, oc, om, orr, od⟩
  cases oa with
  | some e => exact ⟨fun _ => ⟨rfl, by simp [handleDiffMerge]⟩, fun h => absurd rfl h⟩
  | none =>
  cases oc with
  | some e => exact ⟨fun _ => ⟨rfl, by simp [handleDiffMerge]⟩, fun h => absurd rfl h⟩
  | none =>
  cases om with
  | some e => exact ⟨fun _ => ⟨rfl, by simp [handleDiffMerge]⟩, fun h => absurd rfl h⟩
  | none =>
  cases orr with
  | some e =>
    refine ⟨fun h => ?_, fun h => absurd rfl h⟩
    rcases h with h | h | h <;> exact absurd rfl h
  | none =>
    refine ⟨fun h => ?_, fun _ => ⟨rfl, rfl, rfl, rfl, rfl⟩⟩
    rcases h with h | h | h <;> exact absurd rfl h

/-! ### C6 — crash recovery on cluster open -/

theorem foldlUpdate_state (now : Nat) (st : String) (h : validExecutionStatus st = true) :
    ∀ (L : List ExecutionRow) (db : DBState),
      (L.foldl (fun acc e => updateExecutionStatus acc now e.id st) db).execs
        = db.execs.map (fun r => L.foldl (fun v e =>
            if v.id = e.id then { v with status := st, updatedAt := now } else v) r)
      ∧ (L.foldl (fun acc e => updateExecutionStatus acc now e.id st) db).tasks = db.tasks
      ∧ (L.foldl (fun acc e => updateExecutionStatus acc now e.id st) db).agentRuns = db.agentRuns
      ∧ (L.foldl (fun acc e => updateExecutionStatus acc now e.id st) db).events = db.events
      ∧ (L.foldl (fun acc e => updateExecutionStatus acc now e.id st) db).lessons = db.lessons := by
  intro L
  induction L with
  | nil => intro db; refine ⟨?_, rfl, rfl, rfl, rfl⟩; simp
  | cons e rest ih =>
    intro db
    have step := updateExecutionStatus_execs db now e.id st h
    have frame := updateExecutionStatus_frame db now e.id st
    refine ⟨?_, ?_, ?_, ?_, ?_⟩
    · show (rest.foldl _ (updateExecutionStatus db now e.id st)).execs = _
      rw [(ih (updateExecutionStatus db now e.id st)).1, step, List.map_map]
      rfl
    · show (rest.foldl _ (updateExecutionStatus db now e.id st)).tasks = _
      rw [(ih _).2.1, frame.1]
    · show (rest.foldl _ (updateExecutionStatus db now e.id st)).agentRuns = _
      rw [(ih _).2.2.1, frame.2.1]
    · show (rest.foldl _ (updateExecutionStatus db now e.id st)).events = _
      rw [(ih _).2.2.2.1, frame.2.2.1]
    · show (rest.foldl _ (updateExecutionStatus db now e.id st)).lessons = _
      rw [(ih _).2.2.2.2, frame.2.2.2]

theorem foldl_rowUpd_point (now : Nat) (st : String) (rid : Nat) :
    ∀ (L : List ExecutionRow) (v : ExecutionRow), v.id = rid →
      L.foldl (fun v e =>
          if v.id = e.id then { v with status := st, updatedAt := now } else v) v
        = if L.any (fun e => e.id == rid) then { v with status := st, updatedAt := now } else v := by
  intro L
  induction L with
  | nil => intro v _; simp
  | cons e rest ih =>
    intro v hv
    by_cases he : v.id = e.id
    · have h1 := ih { v with status := st, updatedAt := now } (by simpa using hv)
      simp only [List.foldl_cons, if_pos he, h1, List.any_cons]
      have hid : (e.id == rid) = true := beq_iff_eq.mpr (by omega)
      simp [hid]
    · have h1 := ih v hv
      simp only [List.foldl_cons, if_neg he, h1, List.any_cons]
      have hid : (e.id == rid) = false := beq_eq_false_iff_ne.mpr (by omega)
      simp [hid]

/-- C6: on cluster open, recovery rewrites exactly the status (and
`updated_at`) of every execution of the cluster stored as `running` to
`interrupted`; `started_at` and `finished_at` of every row and all other
tables — agent runs included — are untouched; and the open path discards a
recovery failure, so opening never fails because of it. -/
theorem recovery_marks_running_interrupted (db : DBState) (now cid : Nat)
    (h : (db.execs.map ExecutionRow.id).Nodup) :
    (recoverInterrupted db now cid).execs = db.execs.map (fun e =>
        if e.clusterID = cid ∧ e.status = "running"
        then { e with status := "interrupted", updatedAt := now } else e)
    ∧ (recoverInterrupted db now cid).tasks = db.tasks
    ∧ (recoverInterrupted db now cid).agentRuns = db.agentRuns
    ∧ (recoverInterrupted db now cid).events = db.events
    ∧ (recoverInterrupted db now cid).lessons = db.lessons
    ∧ (∀ (dbq : DBState) (r : Except String DBState), (openClusterRecoveryStep dbq r).2 = none) := by
  have hval : validExecutionStatus "interrupted" = true := by decide
  have base := foldlUpdate_state now "interrupted" hval
      (listExecutionsByStatus db cid "running") db
  refine ⟨?_, base.2.1, base.2.2.1, base.2.2.2.1, base.2.2.2.2, ?_⟩
  · show (List.foldl _ db _).execs = _
    rw [base.1]
    apply List.map_congr_left
    intro r hr
    rw [foldl_rowUpd_point now "interrupted" r.id _ r rfl]
    have key : ((listExecutionsByStatus db cid "running").any (fun e => e.id == r.id)) = true
        ↔ (r.clusterID = cid ∧ r.status = "running") := by
      constructor
      · intro ha
        obtain ⟨e, heL, hei⟩ := List.any_eq_true.mp ha
        have heid : e.id = r.id := by simpa using hei
        have heDb : e ∈ db.execs := List.mem_of_mem_filter heL
        have hcond := List.of_mem_filter heL
        have : e = r := List.inj_on_of_nodup_map h heDb hr heid
        subst this
        simpa using hcond
      · intro hc
        apply List.any_eq_true.mpr
        refine ⟨r, ?_, by simp⟩
        apply List.mem_filter.mpr
        exact ⟨hr, by simp [hc.1, hc.2]⟩
    by_cases hc : r.clusterID = cid ∧ r.status = "running"
    · rw [if_pos (key.mpr hc), if_pos hc]
    · rw [if_neg hc, if_neg ?_]
      intro hx
      exact hc (key.mp hx)
  · intro dbq r
    cases r <;> rfl

theorem recovery_marks_running_interrupted_witness :
    (recoverInterrupted db6 5 1).execs = db6.execs.map (fun e =>
        if e.clusterID = 1 ∧ e.status = "running"
        then { e with status := "interrupted", updatedAt := 5 } else e)
    ∧ (recoverInterrupted db6 5 1).agentRuns = db6.agentRuns :=
  ⟨(recovery_marks_running_interrupted db6 5 1 (by decide)).1,
   (recovery_marks_running_interrupted db6 5 1 (by decide)).2.2.1⟩

/-! ### C4 — worker failures, agent-run rows, and the summary phase -/

theorem createAgentRun_agentRuns_pos (db : DBState) (i : Nat) (a r p s o f : String)
    (h : (validAgentType a && validOutcome o) = true) :
    (createAgentRun db i a r p s o f).agentRuns = db.agentRuns ++
      [{ executionID := i, agentType := a, role := r, prompt := p
         summary := s, outcome := o, filesChanged := f }] := by
  unfold createAgentRun; rw [if_pos h]

theorem createAgentRun_agentRuns_neg (db : DBState) (i : Nat) (a r p s o f : String)
    (h : (validAgentType a && validOutcome o) = false) :
    (createAgentRun db i a r p s o f).agentRuns = db.agentRuns := by
  unfold createAgentRun; rw [if_neg (by simp [h])]

theorem runNextWorker_count (db : DBState) (e : Nat) (role prompt : String) (c : WorkerCase) :
    workerRunCount (runNextWorkerDB db e role prompt c) e
      = workerRunCount db e + (if producesRun c then 1 else 0) := by
  unfold workerRunCount
  have hev : ∀ (dbx : DBState) (i : Nat) (l t m : String),
      (createEvent dbx i l t m).agentRuns = dbx.agentRuns :=
    fun dbx i l t m => (createEvent_frame dbx i l t m).2.2.1
  cases c with
  | schedErr m => simp [runNextWorkerDB, producesRun, hev]
  | cliErr m =>
    simp only [runNextWorkerDB, producesRun, if_pos]
    rw [createAgentRun_agentRuns_pos _ _ _ _ _ _ _ _ (by decide), hev, hev]
    simp [List.filter_append]
  | noJSON =>
    simp only [runNextWorkerDB, producesRun, if_pos]
    rw [createAgentRun_agentRuns_pos _ _ _ _ _ _ _ _ (by decide), hev, hev]
    simp [List.filter_append]
  | parseErr m =>
    simp only [runNextWorkerDB, producesRun, if_pos]
    rw [createAgentRun_agentRuns_pos _ _ _ _ _ _ _ _ (by decide), hev, hev]
    simp [List.filter_append]
  | typeErr => simp [runNextWorkerDB, producesRun, hev]
  | ok wr =>
    simp only [runNextWorkerDB, producesRun]
    rw [hev]
    by_cases hv : validOutcome wr.outcome
    · rw [createAgentRun_agentRuns_pos _ _ _ _ _ _ _ _ (by simp [validAgentType, hv]), hev, if_pos hv]
      simp [List.filter_append]
    · rw [createAgentRun_agentRuns_neg _ _ _ _ _ _ _ _ (by simp [validAgentType, hv]), hev, if_neg hv]
      simp

/-- C4 counterexample: a single worker whose reply parses to an unexpected
response type (a type mismatch) is a worker failure, yet `runNextWorker`
records no agent-run row for it, so after the loop the store holds 0 worker
rows against 1 entry in the plan's NeedsWorkers list. -/
theorem workerLoop_count_counterexample :
    workerRunCount (runWorkersDB db0 7 [("coder", WorkerCase.typeErr)]).1 7 = 0
    ∧ ([("coder", WorkerCase.typeErr)] : List (String × WorkerCase)).length = 1
    ∧ (0 : Nat) ≠ 1
    ∧ (runWorkersDB db0 7 [("coder", WorkerCase.typeErr)]).2 = ExecStep.bossSummary := by
  refine ⟨by decide, by decide, by decide, by decide⟩

/-- C4 as amended: a worker CLI error, missing JSON block, or parse error is
recorded as a failed worker agent-run row; a type mismatch (and a scheduler
acquire failure) records only an event and no row, and a success whose
outcome is outside the store's outcome domain fails the schema CHECK and adds
no row.  The number of persisted worker rows therefore equals the number of
plan entries whose case produces a row, and the loop always ends in the
boss-summary phase. -/
theorem workerLoop_agentRuns_spec (execID : Nat) :
    (∀ (db : DBState) (plan : List (String × WorkerCase)),
      workerRunCount (runWorkersDB db execID plan).1 execID
        = workerRunCount db execID + (plan.filter (fun p => producesRun p.2)).length
      ∧ (runWorkersDB db execID plan).2 = ExecStep.bossSummary)
    ∧ (∀ (db : DBState) (role prompt m : String),
        (runNextWorkerDB db execID role prompt (.cliErr m)).agentRuns
          = db.agentRuns ++ [{ executionID := execID, agentType := "worker", role := role
                               prompt := prompt, summary := "Failed: " ++ m
                               outcome := "failed", filesChanged := "" }])
    ∧ (∀ (db : DBState) (role prompt : String),
        (runNextWorkerDB db execID role prompt .noJSON).agentRuns
          = db.agentRuns ++ [{ executionID := execID, agentType := "worker", role := role
                               prompt := prompt, summary := "No JSON output"
                               outcome := "failed", filesChanged := "" }])
    ∧ (∀ (db : DBState) (role prompt m : String),
        (runNextWorkerDB db execID role prompt (.parseErr m)).agentRuns
          = db.agentRuns ++ [{ executionID := execID, agentType := "worker", role := role
                               prompt := prompt, summary := "Parse error: " ++ m
                               outcome := "failed", filesChanged := "" }])
    ∧ (∀ (db : DBState) (role prompt : String),
        (runNextWorkerDB db execID role prompt .typeErr).agentRuns = db.agentRuns) := by
  have hev : ∀ (dbx : DBState) (i : Nat) (l t m : String),
      (createEvent dbx i l t m).agentRuns = dbx.agentRuns :=
    fun dbx i l t m => (createEvent_frame dbx i l t m).2.2.1
  refine ⟨?_, ?_, ?_, ?_, ?_⟩
  · intro db plan
    induction plan generalizing db with
    | nil => simp [runWorkersDB]
    | cons p rest ih =>
      obtain ⟨role, c⟩ := p
      have hstep := runNextWorker_count db execID role "" c
      have hrest := ih (runNextWorkerDB db execID role "" c)
      refine ⟨?_, hrest.2⟩
      show workerRunCount (runWorkersDB (runNextWorkerDB db execID role "" c) execID rest).1 execID = _
      rw [hrest.1, hstep]
      by_cases hp : producesRun c
      · simp [hp]; omega
      · simp [hp]
  · intro db role prompt m
    show (createAgentRun _ _ _ _ _ _ _ _).agentRuns = _
    rw [createAgentRun_agentRuns_pos _ _ _ _ _ _ _ _ (by decide), hev, hev]
  · intro db role prompt
    show (createAgentRun _ _ _ _ _ _ _ _).agentRuns = _
    rw [createAgentRun_agentRuns_pos _ _ _ _ _ _ _ _ (by decide), hev, hev]
  · intro db role prompt m
    show (createAgentRun _ _ _ _ _ _ _ _).agentRuns = _
    rw [createAgentRun_agentRuns_pos _ _ _ _ _ _ _ _ (by decide), hev, hev]
  · intro db role prompt
    show (createEvent _ _ _ _ _).agentRuns = _
    rw [hev, hev]

/-! ### C1 — the boss-summary outcome-to-status mapping -/

/-- C1 counterexample: when the boss-summary CLI invocation fails, the
engine still finishes the execution — with status `completed`, which the
claim says the engine never writes. -/
theorem bossSummary_completed_counterexample :
    (runBossSummaryDB db0 0 1 2 "p"
        { err := some "exit status 1", jsonBlock := "" }
        (fun _ => Except.error "unused")).2 = "completed"
    ∧ ("completed" : String) ≠ "failed"
    ∧ ("completed" : String) ≠ "diff_review" := by
  refine ⟨by decide, by decide, by decide⟩

/-- C1 as amended: when the boss summary parses to a `BossSummary`, the final
status written by SetExecutionFinished follows the outcome mapping —
`failed` to failed, anything else (including `partial`, `success`, or a
missing outcome string) to diff-review save that `partial` and the rest both
land on diff-review — and is never `completed`; but when the CLI errs, the
JSON block is missing, or parsing does not yield a `BossSummary`, the engine
finishes the execution with status `completed`. -/
theorem runBossSummary_snd (db : DBState) (now execID taskID : Nat)
    (sp : String) (res : RunResultR) (parse : String → Except String AgentResponse) :
    (runBossSummaryDB db now execID taskID sp res parse).2 =
      (match res.err with
      | some _ => "completed"
      | none =>
        if res.jsonBlock ≠ "" then
          match parse res.jsonBlock with
          | .ok (.bossSummary bs) =>
            if bs.outcome = "failed" then "failed"
            else if bs.outcome = "partial" then "diff_review" else "diff_review"
          | _ => "completed"
        else "completed") := by
  unfold runBossSummaryDB
  rcases res.err with _ | e
  · dsimp only
    by_cases hjb : res.jsonBlock ≠ ""
    · rw [if_pos hjb, if_pos hjb]
      rcases parse res.jsonBlock with e2 | r2
      · rfl
      · cases r2 <;> rfl
    · rw [if_neg hjb, if_neg hjb]
  · rfl

theorem bossSummary_final_status (db : DBState) (now execID taskID : Nat)
    (sp : String) (res : RunResultR) (parse : String → Except String AgentResponse) :
    (∀ bs : BossSummaryR, res.err = none → res.jsonBlock ≠ "" →
      parse res.jsonBlock = .ok (.bossSummary bs) →
      (runBossSummaryDB db now execID taskID sp res parse).2
        = (if bs.outcome = "failed" then "failed" else "diff_review")
      ∧ (if bs.outcome = "failed" then "failed" else "diff_review") ≠ "completed")
    ∧ (res.err ≠ none ∨ res.jsonBlock = "" ∨
        (∀ bs : BossSummaryR, parse res.jsonBlock ≠ .ok (.bossSummary bs)) →
      (runBossSummaryDB db now execID taskID sp res parse).2 = "completed") := by
  have hsnd := runBossSummary_snd db now execID taskID sp res parse
  constructor
  · intro bs he hj hp
    constructor
    · rw [hsnd, he]
      dsimp only
      rw [if_pos hj, hp]
      dsimp only
      by_cases ho : bs.outcome = "failed"
      · simp [ho]
      · by_cases hp2 : bs.outcome = "partial" <;> simp [ho, hp2]
    · by_cases ho : bs.outcome = "failed" <;> simp [ho]
  · intro h
    rw [hsnd]
    rcases hres : res.err with _ | e
    · dsimp only
      rcases h with he | hj | hp
      · exact absurd hres he
      · simp [hj]
      · by_cases hjb : res.jsonBlock ≠ ""
        · rw [if_pos hjb]
          rcases hpr : parse res.jsonBlock with e2 | r2
          · rfl
          · cases r2
            · rfl
            · rfl
            · rfl
            · rfl
            · rfl
            · exact absurd hpr (hp _)
            · rfl
        · rw [if_neg hjb]
    · rfl

theorem bossSummary_final_status_witness :
    (runBossSummaryDB db0 0 1 2 "p" { err := none, jsonBlock := "j" }
        (fun _ => Except.ok (AgentResponse.bossSummary
          { outcome := "partial", whatChanged := [], lessons := [], filesTouched := [] }))).2
      = (if ("partial" : String) = "failed" then "failed" else "diff_review") :=
  ((bossSummary_final_status db0 0 1 2 "p" { err := none, jsonBlock := "j" }
      (fun _ => Except.ok (AgentResponse.bossSummary
        { outcome := "partial", whatChanged := [], lessons := [], filesTouched := [] }))).1
    _ rfl (by decide) rfl).1

/-! ### C9 — execution branch naming -/

theorem dropWhile_head_false {α : Type} (p : α → Bool) :
    ∀ (l : List α) (c : α) (r : List α), l.dropWhile p = c :: r → p c = false := by
  intro l
  induction l with
  | nil => intro c r h; simp [List.dropWhile] at h
  | cons a t ih =>
    intro c r h
    cases hp : p a with
    | true =>
      rw [List.dropWhile_cons_of_pos (by rw [hp])] at h
      exact ih c r h
    | false =>
      rw [List.dropWhile_cons_of_neg (by rw [hp]; simp)] at h
      cases h
      exact hp

theorem trimRightDashes_eq_rdropWhile (l : List Char) :
    trimRightDashes l = List.rdropWhile (fun c => c == '-') l := rfl

theorem trimDashes_eq_rdropWhile (l : List Char) :
    trimDashes l = List.rdropWhile (fun c => c == '-') (l.dropWhile (fun c => c == '-')) := rfl

theorem trimRightDashes_trimDashes (x : List Char) :
    trimRightDashes (trimDashes x) = trimDashes x := by
  rw [trimRightDashes_eq_rdropWhile, trimDashes_eq_rdropWhile]
  exact List.rdropWhile_idempotent _ _

theorem trimDashes_head_false (x : List Char) (c : Char) (r : List Char)
    (h : trimDashes x = c :: r) : (c == '-') = false := by
  have hpre : trimDashes x <+: x.dropWhile (fun c => c == '-') := by
    rw [trimDashes_eq_rdropWhile]
    exact List.rdropWhile_prefix _ _
  rw [h] at hpre
  obtain ⟨tail, ht⟩ := hpre
  exact dropWhile_head_false _ x c (r ++ tail) (by simpa using ht.symm)

theorem trimRightDashes_take_ne_nil (t : List Char) (h0 : t ≠ [])
    (hhead : ∀ c r, t = c :: r → (c == '-') = false) :
    trimRightDashes (t.take 50) ≠ [] := by
  cases t with
  | nil => exact absurd rfl h0
  | cons c r =>
    have hc := hhead c r rfl
    intro hcontra
    rw [trimRightDashes_eq_rdropWhile] at hcontra
    have hall := List.rdropWhile_eq_nil_iff.mp hcontra
    have hcmem : c ∈ (c :: r).take 50 := by
      rw [List.take_succ_cons]
      exact List.mem_cons_self _ _
    have := hall c hcmem
    rw [hc] at this
    exact Bool.false_ne_true this

theorem Slugify_unfold (s : List Char) :
    Slugify s =
      (if trimDashes (collapseDashes ((s.map goToLowerChar).map
            (fun c => if isSlugKeep c then c else '-'))) = []
       then "untitled".data
       else if (trimDashes (collapseDashes ((s.map goToLowerChar).map
            (fun c => if isSlugKeep c then c else '-')))).length > 50
       then trimRightDashes ((trimDashes (collapseDashes ((s.map goToLowerChar).map
            (fun c => if isSlugKeep c then c else '-')))).take 50)
       else trimDashes (collapseDashes ((s.map goToLowerChar).map
            (fun c => if isSlugKeep c then c else '-')))) := rfl

theorem amendedSlug_unfold (s : List Char) :
    amendedSlug s =
      (if trimRightDashes ((trimDashes (collapseDashes ((s.map goToLowerChar).map
            (fun c => if isSlugKeep c then c else '-')))).take 50) = []
       then "untitled".data
       else trimRightDashes ((trimDashes (collapseDashes ((s.map goToLowerChar).map
            (fun c => if isSlugKeep c then c else '-')))).take 50)) := rfl

theorem slugify_eq_amendedSlug (s : List Char) : Slugify s = amendedSlug s := by
  rw [Slugify_unfold, amendedSlug_unfold]
  set t := trimDashes (collapseDashes ((s.map goToLowerChar).map
      (fun c => if isSlugKeep c then c else '-'))) with ht
  have hhead : ∀ c r, t = c :: r → (c == '-') = false := fun c r h =>
    trimDashes_head_false _ c r (ht ▸ h)
  have htr : trimRightDashes t = t := ht ▸ trimRightDashes_trimDashes _
  by_cases h0 : t = []
  · rw [if_pos h0, h0]
    have : trimRightDashes (([] : List Char).take 50) = [] := rfl
    rw [if_pos this]
  · rw [if_neg h0]
    by_cases h50 : t.length > 50
    · rw [if_pos h50]
      have hne : trimRightDashes (t.take 50) ≠ [] := trimRightDashes_take_ne_nil t h0 hhead
      rw [if_neg hne]
    · rw [if_neg h50]
      have htake : t.take 50 = t := List.take_of_length_le (by omega)
      rw [htake, htr, if_neg h0]

/-- C9 counterexample: the title made of six nine-letter words slugs to 59
characters; the cap cuts it at a hyphen, which `Slugify` then trims but the
claim's pipeline — cap with no further trim — keeps, so the claimed branch
name differs from the generated one. -/
theorem execBranch_cap_counterexample :
    claimBranch "t".data 1
        "aaaaaaaaa aaaaaaaaa aaaaaaaaa aaaaaaaaa aaaaaaaaa aaaaaaaaa".data
      ≠ MakeExecBranch "t".data 1
        "aaaaaaaaa aaaaaaaaa aaaaaaaaa aaaaaaaaa aaaaaaaaa aaaaaaaaa".data := by
  decide

/-- C9 as amended: the execution branch is
`bore/<thread-slug>-<taskID>-<title-slug>` where each slug is lowercased,
mapped to `[a-z0-9]` with hyphens, collapsed, trimmed, capped at 50
characters with trailing hyphens exposed by the cap trimmed again,
`untitled` substituted for an empty result, and the title slug is built from
at most the first six whitespace-separated words of the title. -/
theorem execBranch_matches_amended_format (threadName : List Char) (taskID : Nat)
    (taskTitle : List Char) :
    MakeExecBranch threadName taskID taskTitle = amendedBranch threadName taskID taskTitle := by
  unfold MakeExecBranch amendedBranch
  simp only [slugify_eq_amendedSlug]

/-! ### C5 — the JSON extractor -/

/-- C5 counterexample: with prefix `[`, json `[1]` and suffix `,2]` — a
balanced valid JSON array followed by a suffix containing no balanced JSON —
the whole string `[[1],2]` is itself a balanced array, so the backward scan
from the final closer validates it first and `extractLastJSON` returns the
outer array, not `json`. -/
theorem extractLastJSON_claim_counterexample :
    isJSONBlock "[1]".data = true
    ∧ containsJSONBlock ",2]".data = false
    ∧ extractLastJSON ("[".data ++ "[1]".data ++ ",2]".data) ≠ "[1]".data := by
  refine ⟨by decide, by decide, by decide⟩

theorem foldl_jsonStep_none (l : List Char) :
    l.foldl (fun o c => Option.bind o (fun s => jsonStep s c)) none = none := by
  induction l with
  | nil => rfl
  | cons c rest ih => simpa using ih

theorem jsonRunFrom_append (st : JState) (l1 l2 : List Char) :
    jsonRunFrom st (l1 ++ l2)
      = (jsonRunFrom st l1).bind (fun s2 => jsonRunFrom s2 l2) := by
  unfold jsonRunFrom
  rw [List.foldl_append]
  rcases h : List.foldl (fun o c => Option.bind o (fun s => jsonStep s c)) (some st) l1 with _ | s2
  · exact foldl_jsonStep_none l2
  · rfl

theorem jsonRun_take_ne_none (j : List Char) (hrun : jsonRunFrom jinit j ≠ none)
    (q : Nat) : jsonRunFrom jinit (j.take q) ≠ none := by
  intro hcontra
  apply hrun
  have : j = j.take q ++ j.drop q := (List.take_append_drop q j).symm
  rw [this, jsonRunFrom_append, hcontra]
  rfl

theorem take_succ_getD (j : List Char) (p : Nat) (hp : p < j.length) :
    j.take (p + 1) = j.take p ++ [j.getD p ' '] := by
  rw [List.take_succ]
  congr 1
  rw [List.getElem?_eq_getElem hp]
  simp [List.getD_eq_getElem?_getD, List.getElem?_eq_getElem hp]

theorem stAt_run (j : List Char) (hrun : jsonRunFrom jinit j ≠ none) (p : Nat) :
    jsonRunFrom jinit (j.take p) = some (stAt j p) := by
  rcases h : jsonRunFrom jinit (j.take p) with _ | st
  · exact absurd h (jsonRun_take_ne_none j hrun p)
  · unfold stAt
    rw [h]
    rfl

theorem stAt_step (j : List Char) (hrun : jsonRunFrom jinit j ≠ none)
    (p : Nat) (hp : p < j.length) :
    jsonStep (stAt j p) (j.getD p ' ') = some (stAt j (p + 1)) := by
  have h1 := stAt_run j hrun p
  have h2 := stAt_run j hrun (p + 1)
  rw [take_succ_getD j p hp, jsonRunFrom_append, h1] at h2
  simpa [jsonRunFrom] using h2

theorem stAt_zero (j : List Char) : stAt j 0 = jinit := rfl

theorem stAt_final (j : List Char) (hvalid : jsonValid j = true) :
    jsonRunFrom jinit j ≠ none ∧ jsonAccept (stAt j j.length) = true := by
  unfold jsonValid at hvalid
  rcases h : jsonRunFrom jinit j with _ | st
  · rw [h] at hvalid; cases hvalid
  · rw [h] at hvalid
    constructor
    · simp
    · unfold stAt
      rw [List.take_length, h]
      exact hvalid

theorem ws_char_facts (c : Char) (h : isJSONWS c = true) :
    c ≠ '"' ∧ c ≠ '\\' ∧ c ≠ '{' ∧ c ≠ '[' ∧ c ≠ '}' ∧ c ≠ ']' := by
  simp only [isJSONWS, Bool.or_eq_true, beq_iff_eq] at h
  rcases h with ((rfl | rfl) | rfl) | rfl <;> refine ⟨by decide, by decide, by decide, by decide, by decide, by decide⟩

theorem digit_char_facts (c : Char) (h : isDigit c = true) :
    c ≠ '"' ∧ c ≠ '\\' ∧ c ≠ '{' ∧ c ≠ '[' ∧ c ≠ '}' ∧ c ≠ ']' := by
  simp only [isDigit, decide_eq_true_eq] at h
  obtain ⟨h1, h2⟩ := h
  refine ⟨?_, ?_, ?_, ?_, ?_, ?_⟩ <;> (rintro rfl; revert h1 h2; decide)

theorem digit19_isDigit (c : Char) (h : isDigit19 c = true) : isDigit c = true := by
  simp only [isDigit19, decide_eq_true_eq] at h
  simp only [isDigit, decide_eq_true_eq]
  exact ⟨le_trans (by decide) h.1, h.2⟩

theorem hex_char_facts (c : Char) (h : isHexDigit c = true) :
    c ≠ '"' ∧ c ≠ '\\' ∧ c ≠ '{' ∧ c ≠ '[' ∧ c ≠ '}' ∧ c ≠ ']' := by
  simp only [isHexDigit, isDigit, Bool.or_eq_true, decide_eq_true_eq] at h
  refine ⟨?_, ?_, ?_, ?_, ?_, ?_⟩ <;>
    (rintro rfl; rcases h with (h | h) | h <;> exact absurd h (by decide))

theorem master_plain (mo : JMode) (stk : List JFrame) (c : Char) (st2 : JState)
    (hc : c ≠ '"' ∧ c ≠ '\\' ∧ c ≠ '{' ∧ c ≠ '[' ∧ c ≠ '}' ∧ c ≠ ']')
    (hmo : inStrMode mo = false) (hmo2 : inStrMode st2.mode = false)
    (hstk : st2.stack = stk) : StepFacts mo stk c st2 := by
  obtain ⟨h1, h2, h3, h4, h5, h6⟩ := hc
  refine ⟨?_, ?_, ?_, ?_, ?_, ?_⟩
  · intro _ _
    exact ⟨fun hx => absurd hx h3, fun hx => absurd hx h4, fun hx => absurd hx h5,
      fun hx => absurd hx h6, fun _ _ _ _ => hstk, hmo2⟩
  · intro _ hq; exact absurd hq h1
  · intro hs; rw [hmo] at hs; cases hs
  · intro k hk; rw [hk] at hmo2; cases hmo2
  · intro k hk; rw [hk] at hmo2; cases hmo2
  · intro hb; exact absurd hb h2

theorem master_push_obj (mo : JMode) (stk : List JFrame) (st2 : JState)
    (hmo : inStrMode mo = false) (hmo2 : inStrMode st2.mode = false)
    (hstk : st2.stack = .obj :: stk) : StepFacts mo stk '{' st2 := by
  refine ⟨?_, ?_, ?_, ?_, ?_, ?_⟩
  · intro _ _
    exact ⟨fun _ => hstk, fun hx => absurd hx (by decide), fun hx => absurd hx (by decide),
      fun hx => absurd hx (by decide), fun hx => absurd rfl hx, hmo2⟩
  · intro _ hq; exact absurd hq (by decide)
  · intro hs; rw [hmo] at hs; cases hs
  · intro k hk; rw [hk] at hmo2; cases hmo2
  · intro k hk; rw [hk] at hmo2; cases hmo2
  · intro hb; exact absurd hb (by decide)

theorem master_push_arr (mo : JMode) (stk : List JFrame) (st2 : JState)
    (hmo : inStrMode mo = false) (hmo2 : inStrMode st2.mode = false)
    (hstk : st2.stack = .arr :: stk) : StepFacts mo stk '[' st2 := by
  refine ⟨?_, ?_, ?_, ?_, ?_, ?_⟩
  · intro _ _
    exact ⟨fun hx => absurd hx (by decide), fun _ => hstk, fun hx => absurd hx (by decide),
      fun hx => absurd hx (by decide), fun _ hx => absurd rfl hx, hmo2⟩
  · intro _ hq; exact absurd hq (by decide)
  · intro hs; rw [hmo] at hs; cases hs
  · intro k hk; rw [hk] at hmo2; cases hmo2
  · intro k hk; rw [hk] at hmo2; cases hmo2
  · intro hb; exact absurd hb (by decide)

theorem master_pop_obj (mo : JMode) (stk : List JFrame) (st2 : JState)
    (hmo : inStrMode mo = false) (hm2 : st2.mode = .afterVal)
    (hstk : stk = .obj :: st2.stack) : StepFacts mo stk '}' st2 := by
  have hmo2 : inStrMode st2.mode = false := by rw [hm2]; rfl
  refine ⟨?_, ?_, ?_, ?_, ?_, ?_⟩
  · intro _ _
    exact ⟨fun hx => absurd hx (by decide), fun hx => absurd hx (by decide),
      fun _ => ⟨hstk, hm2⟩, fun hx => absurd hx (by decide),
      fun _ _ hx _ => absurd rfl hx, hmo2⟩
  · intro _ hq; exact absurd hq (by decide)
  · intro hs; rw [hmo] at hs; cases hs
  · intro k hk; rw [hk] at hmo2; cases hmo2
  · intro k hk; rw [hk] at hmo2; cases hmo2
  · intro hb; exact absurd hb (by decide)

theorem master_pop_arr (mo : JMode) (stk : List JFrame) (st2 : JState)
    (hmo : inStrMode mo = false) (hm2 : st2.mode = .afterVal)
    (hstk : stk = .arr :: st2.stack) : StepFacts mo stk ']' st2 := by
  have hmo2 : inStrMode st2.mode = false := by rw [hm2]; rfl
  refine ⟨?_, ?_, ?_, ?_, ?_, ?_⟩
  · intro _ _
    exact ⟨fun hx => absurd hx (by decide), fun hx => absurd hx (by decide),
      fun hx => absurd hx (by decide), fun _ => ⟨hstk, hm2⟩,
      fun _ _ _ hx => absurd rfl hx, hmo2⟩
  · intro _ hq; exact absurd hq (by decide)
  · intro hs; rw [hmo] at hs; cases hs
  · intro k hk; rw [hk] at hmo2; cases hmo2
  · intro k hk; rw [hk] at hmo2; cases hmo2
  · intro hb; exact absurd hb (by decide)

theorem master_open_quote (mo : JMode) (stk : List JFrame) (st2 : JState) (b : Bool)
    (hmo : inStrMode mo = false) (hm2 : st2.mode = .str b)
    (hstk : st2.stack = stk) : StepFacts mo stk '"' st2 := by
  refine ⟨?_, ?_, ?_, ?_, ?_, ?_⟩
  · intro _ hq; exact absurd rfl hq
  · intro _ _; exact ⟨by rw [hm2]; rfl, hstk⟩
  · intro hs; rw [hmo] at hs; cases hs
  · intro k hk; rw [hm2] at hk; cases hk
  · intro k _ hb; exact absurd hb (by decide)
  · intro hb; exact absurd hb (by decide)

theorem master_close_quote (stk : List JFrame) (st2 : JState) (k : Bool)
    (hmo2 : inStrMode st2.mode = false) (hstk : st2.stack = stk) :
    StepFacts (.str k) stk '"' st2 := by
  refine ⟨?_, ?_, ?_, ?_, ?_, ?_⟩
  · intro hs _; cases hs
  · intro hs; cases hs
  · intro _; exact ⟨hstk, Or.inl ⟨rfl, ⟨k, rfl⟩, hmo2⟩⟩
  · intro k2 hk; rw [hk] at hmo2; cases hmo2
  · intro k2 hk; rw [hk] at hmo2; cases hmo2
  · intro hb; exact absurd hb (by decide)

theorem master_str_backslash (stk : List JFrame) (st2 : JState) (k : Bool)
    (hm2 : st2.mode = .strEsc k) (hstk : st2.stack = stk) :
    StepFacts (.str k) stk '\\' st2 := by
  refine ⟨?_, ?_, ?_, ?_, ?_, ?_⟩
  · intro hs _; cases hs
  · intro hs; cases hs
  · intro _
    refine ⟨hstk, Or.inr (Or.inr ⟨by decide, by rw [hm2]; rfl⟩)⟩
  · intro k2 hk
    rw [hm2] at hk
    cases hk
    exact ⟨rfl, rfl⟩
  · intro k2 hk; rw [hm2] at hk; cases hk
  · intro _; rw [hm2]; rfl

theorem master_esc_to_str (stk : List JFrame) (st2 : JState) (k : Bool) (c : Char)
    (hm2 : st2.mode = .str k) (hstk : st2.stack = stk) :
    StepFacts (.strEsc k) stk c st2 := by
  refine ⟨?_, ?_, ?_, ?_, ?_, ?_⟩
  · intro hs _; cases hs
  · intro hs; cases hs
  · intro _
    refine ⟨hstk, ?_⟩
    by_cases hq : c = '"'
    · exact Or.inr (Or.inl ⟨hq, ⟨k, rfl⟩, by rw [hm2]; rfl⟩)
    · exact Or.inr (Or.inr ⟨hq, by rw [hm2]; rfl⟩)
  · intro k2 hk; rw [hm2] at hk; cases hk
  · intro k2 hk _
    rw [hm2] at hk
    cases hk
    rfl
  · intro _; rw [hm2]; rfl

theorem master_in_string_misc (mo : JMode) (stk : List JFrame) (st2 : JState) (c : Char)
    (hmo : inStrMode mo = true) (hmo2 : inStrMode st2.mode = true)
    (hstk : st2.stack = stk)
    (hq : c ≠ '"') (hb : c ≠ '\\')
    (hne : ∀ k, st2.mode ≠ .strEsc k) : StepFacts mo stk c st2 := by
  refine ⟨?_, ?_, ?_, ?_, ?_, ?_⟩
  · intro hs _; rw [hmo] at hs; cases hs
  · intro hs; rw [hmo] at hs; cases hs
  · intro _; exact ⟨hstk, Or.inr (Or.inr ⟨hq, hmo2⟩)⟩
  · intro k hk; exact absurd hk (hne k)
  · intro k _ hbc; exact absurd hbc hb
  · intro hbc; exact absurd hbc hb

theorem stepValStart_master (mo : JMode) (stk : List JFrame) (c : Char) (st2 : JState)
    (hmo : inStrMode mo = false) (h : stepValStart stk c = some st2) :
    StepFacts mo stk c st2 := by
  unfold stepValStart at h
  split at h
  · next hq =>
    rw [beq_iff_eq] at hq
    subst hq
    injection h with h2
    subst h2
    exact master_open_quote mo stk _ false hmo rfl rfl
  · next hq =>
    split at h
    · next hc =>
      rw [beq_iff_eq] at hc
      subst hc
      injection h with h2
      subst h2
      exact master_push_obj mo stk _ hmo rfl rfl
    · split at h
      · next hc =>
        rw [beq_iff_eq] at hc
        subst hc
        injection h with h2
        subst h2
        exact master_push_arr mo stk _ hmo rfl rfl
      · split at h
        · next hc =>
          rw [beq_iff_eq] at hc
          subst hc
          injection h with h2
          subst h2
          exact master_plain mo stk _ _ (by refine ⟨?_, ?_, ?_, ?_, ?_, ?_⟩ <;> decide) hmo rfl rfl
        · split at h
          · next hc =>
            rw [beq_iff_eq] at hc
            subst hc
            injection h with h2
            subst h2
            exact master_plain mo stk _ _ (by refine ⟨?_, ?_, ?_, ?_, ?_, ?_⟩ <;> decide) hmo rfl rfl
          · split at h
            · next hc =>
              rw [beq_iff_eq] at hc
              subst hc
              injection h with h2
              subst h2
              exact master_plain mo stk _ _ (by refine ⟨?_, ?_, ?_, ?_, ?_, ?_⟩ <;> decide) hmo rfl rfl
            · split at h
              · next hc =>
                rw [beq_iff_eq] at hc
                subst hc
                injection h with h2
                subst h2
                exact master_plain mo stk _ _ (by refine ⟨?_, ?_, ?_, ?_, ?_, ?_⟩ <;> decide) hmo rfl rfl
              · split at h
                · next hc =>
                  rw [beq_iff_eq] at hc
                  subst hc
                  injection h with h2
                  subst h2
                  exact master_plain mo stk _ _ (by refine ⟨?_, ?_, ?_, ?_, ?_, ?_⟩ <;> decide) hmo rfl rfl
                · split at h
                  · next hd =>
                    injection h with h2
                    subst h2
                    exact master_plain mo stk _ _ (digit_char_facts c (digit19_isDigit c hd)) hmo rfl rfl
                  · exact Option.noConfusion h

theorem stepAfterVal_master (mo : JMode) (stk : List JFrame) (c : Char) (st2 : JState)
    (hmo : inStrMode mo = false) (h : stepAfterVal stk c = some st2) :
    StepFacts mo stk c st2 := by
  unfold stepAfterVal at h
  split at h
  · next hws =>
    injection h with h2
    subst h2
    exact master_plain mo stk _ _ (ws_char_facts c hws) hmo rfl rfl
  · split at h
    · next hc =>
      rw [beq_iff_eq] at hc
      subst hc
      split at h
      · injection h with h2
        subst h2
        exact master_plain mo _ _ _ (by refine ⟨?_, ?_, ?_, ?_, ?_, ?_⟩ <;> decide) hmo rfl rfl
      · injection h with h2
        subst h2
        exact master_plain mo _ _ _ (by refine ⟨?_, ?_, ?_, ?_, ?_, ?_⟩ <;> decide) hmo rfl rfl
      · exact Option.noConfusion h
    · split at h
      · next hc =>
        rw [beq_iff_eq] at hc
        subst hc
        split at h
        · injection h with h2
          subst h2
          exact master_pop_obj mo _ _ hmo rfl rfl
        · exact Option.noConfusion h
      · split at h
        · next hc =>
          rw [beq_iff_eq] at hc
          subst hc
          split at h
          · injection h with h2
            subst h2
            exact master_pop_arr mo _ _ hmo rfl rfl
          · exact Option.noConfusion h
        · exact Option.noConfusion h

theorem jsonStep_master (mo : JMode) (stk : List JFrame) (c : Char) (st2 : JState)
    (hgood : goodMode mo = true)
    (h : jsonStep ⟨mo, stk⟩ c = some st2) : StepFacts mo stk c st2 := by
  cases mo with
  | val =>
    simp only [jsonStep] at h
    split at h
    · next hws =>
      injection h with h2
      subst h2
      exact master_plain _ stk _ _ (ws_char_facts c hws) rfl rfl rfl
    · exact stepValStart_master _ stk c st2 rfl h
  | arrFirst =>
    simp only [jsonStep] at h
    split at h
    · next hws =>
      injection h with h2
      subst h2
      exact master_plain _ stk _ _ (ws_char_facts c hws) rfl rfl rfl
    · split at h
      · next hc =>
        rw [beq_iff_eq] at hc
        subst hc
        split at h
        · injection h with h2
          subst h2
          exact master_pop_arr _ _ _ rfl rfl rfl
        · exact Option.noConfusion h
      · exact stepValStart_master _ stk c st2 rfl h
  | objFirst =>
    simp only [jsonStep] at h
    split at h
    · next hws =>
      injection h with h2
      subst h2
      exact master_plain _ stk _ _ (ws_char_facts c hws) rfl rfl rfl
    · split at h
      · next hq =>
        rw [beq_iff_eq] at hq
        subst hq
        injection h with h2
        subst h2
        exact master_open_quote _ stk _ true rfl rfl rfl
      · split at h
        · next hc =>
          rw [beq_iff_eq] at hc
          subst hc
          split at h
          · injection h with h2
            subst h2
            exact master_pop_obj _ _ _ rfl rfl rfl
          · exact Option.noConfusion h
        · exact Option.noConfusion h
  | objKey =>
    simp only [jsonStep] at h
    split at h
    · next hws =>
      injection h with h2
      subst h2
      exact master_plain _ stk _ _ (ws_char_facts c hws) rfl rfl rfl
    · split at h
      · next hq =>
        rw [beq_iff_eq] at hq
        subst hq
        injection h with h2
        subst h2
        exact master_open_quote _ stk _ true rfl rfl rfl
      · exact Option.noConfusion h
  | afterKey =>
    simp only [jsonStep] at h
    split at h
    · next hws =>
      injection h with h2
      subst h2
      exact master_plain _ stk _ _ (ws_char_facts c hws) rfl rfl rfl
    · split at h
      · next hc =>
        rw [beq_iff_eq] at hc
        subst hc
        injection h with h2
        subst h2
        exact master_plain _ stk _ _ (by refine ⟨?_, ?_, ?_, ?_, ?_, ?_⟩ <;> decide) rfl rfl rfl
      · exact Option.noConfusion h
  | afterVal => exact stepAfterVal_master _ stk c st2 rfl h
  | str k =>
    simp only [jsonStep] at h
    split at h
    · next hq =>
      rw [beq_iff_eq] at hq
      subst hq
      injection h with h2
      subst h2
      exact master_close_quote stk _ k (by cases k <;> rfl) rfl
    · next hq =>
      split at h
      · next hb =>
        rw [beq_iff_eq] at hb
        subst hb
        injection h with h2
        subst h2
        exact master_str_backslash stk _ k rfl rfl
      · next hb =>
        split at h
        · exact Option.noConfusion h
        · injection h with h2
          subst h2
          exact master_in_string_misc _ stk _ c rfl rfl rfl
            (by simpa using hq) (by simpa using hb) (fun k2 => by simp)
  | strEsc k =>
    simp only [jsonStep] at h
    split at h
    · injection h with h2
      subst h2
      exact master_esc_to_str stk _ k c rfl rfl
    · split at h
      · next hu =>
        rw [beq_iff_eq] at hu
        subst hu
        injection h with h2
        subst h2
        exact master_in_string_misc _ stk _ _ rfl rfl rfl (by decide) (by decide)
          (fun k2 => by simp)
      · exact Option.noConfusion h
  | strEscU k j =>
    simp only [jsonStep] at h
    split at h
    · next hhex =>
      have hfacts := hex_char_facts c hhex
      split at h
      · exact Option.noConfusion h
      · injection h with h2
        subst h2
        exact master_in_string_misc _ stk _ c rfl rfl rfl hfacts.1 hfacts.2.1
          (fun k2 => by simp)
      · injection h with h2
        subst h2
        exact master_in_string_misc _ stk _ c rfl rfl rfl hfacts.1 hfacts.2.1
          (fun k2 => by simp)
    · exact Option.noConfusion h
  | lit rest =>
    simp only [goodMode, goodLit, decide_eq_true_eq] at hgood
    rcases hgood with rfl | rfl | rfl | rfl | rfl | rfl | rfl | rfl | rfl <;>
      (simp only [jsonStep] at h
       split at h
       · next hc =>
         rw [beq_iff_eq] at hc
         subst hc
         first
         | (rw [if_neg (by decide)] at h
            injection h with h2
            subst h2
            exact master_plain _ stk _ _ (by refine ⟨?_, ?_, ?_, ?_, ?_, ?_⟩ <;> decide) rfl rfl rfl)
         | (rw [if_pos (by decide)] at h
            injection h with h2
            subst h2
            exact master_plain _ stk _ _ (by refine ⟨?_, ?_, ?_, ?_, ?_, ?_⟩ <;> decide) rfl rfl rfl)
       · exact Option.noConfusion h)
  | num ns =>
    cases ns with
    | neg =>
      simp only [jsonStep] at h
      split at h
      · next hc =>
        rw [beq_iff_eq] at hc
        subst hc
        injection h with h2
        subst h2
        exact master_plain _ stk _ _ (by refine ⟨?_, ?_, ?_, ?_, ?_, ?_⟩ <;> decide) rfl rfl rfl
      · split at h
        · next hd =>
          injection h with h2
          subst h2
          exact master_plain _ stk _ _ (digit_char_facts c (digit19_isDigit c hd)) rfl rfl rfl
        · exact Option.noConfusion h
    | zero =>
      simp only [jsonStep] at h
      split at h
      · next hc =>
        rw [beq_iff_eq] at hc
        subst hc
        injection h with h2
        subst h2
        exact master_plain _ stk _ _ (by refine ⟨?_, ?_, ?_, ?_, ?_, ?_⟩ <;> decide) rfl rfl rfl
      · split at h
        · next hc =>
          rw [Bool.or_eq_true, beq_iff_eq, beq_iff_eq] at hc
          injection h with h2
          subst h2
          rcases hc with rfl | rfl <;>
            exact master_plain _ stk _ _ (by refine ⟨?_, ?_, ?_, ?_, ?_, ?_⟩ <;> decide) rfl rfl rfl
        · exact stepAfterVal_master _ stk c st2 rfl h
    | intg =>
      simp only [jsonStep] at h
      split at h
      · next hd =>
        injection h with h2
        subst h2
        exact master_plain _ stk _ _ (digit_char_facts c hd) rfl rfl rfl
      · split at h
        · next hc =>
          rw [beq_iff_eq] at hc
          subst hc
          injection h with h2
          subst h2
          exact master_plain _ stk _ _ (by refine ⟨?_, ?_, ?_, ?_, ?_, ?_⟩ <;> decide) rfl rfl rfl
        · split at h
          · next hc =>
            rw [Bool.or_eq_true, beq_iff_eq, beq_iff_eq] at hc
            injection h with h2
            subst h2
            rcases hc with rfl | rfl <;>
              exact master_plain _ stk _ _ (by refine ⟨?_, ?_, ?_, ?_, ?_, ?_⟩ <;> decide) rfl rfl rfl
          · exact stepAfterVal_master _ stk c st2 rfl h
    | dot =>
      simp only [jsonStep] at h
      split at h
      · next hd =>
        injection h with h2
        subst h2
        exact master_plain _ stk _ _ (digit_char_facts c hd) rfl rfl rfl
      · exact Option.noConfusion h
    | frac =>
      simp only [jsonStep] at h
      split at h
      · next hd =>
        injection h with h2
        subst h2
        exact master_plain _ stk _ _ (digit_char_facts c hd) rfl rfl rfl
      · split at h
        · next hc =>
          rw [Bool.or_eq_true, beq_iff_eq, beq_iff_eq] at hc
          injection h with h2
          subst h2
          rcases hc with rfl | rfl <;>
            exact master_plain _ stk _ _ (by refine ⟨?_, ?_, ?_, ?_, ?_, ?_⟩ <;> decide) rfl rfl rfl
        · exact stepAfterVal_master _ stk c st2 rfl h
    | e =>
      simp only [jsonStep] at h
      split at h
      · next hc =>
        rw [Bool.or_eq_true, beq_iff_eq, beq_iff_eq] at hc
        injection h with h2
        subst h2
        rcases hc with rfl | rfl <;>
          exact master_plain _ stk _ _ (by refine ⟨?_, ?_, ?_, ?_, ?_, ?_⟩ <;> decide) rfl rfl rfl
      · split at h
        · next hd =>
          injection h with h2
          subst h2
          exact master_plain _ stk _ _ (digit_char_facts c hd) rfl rfl rfl
        · exact Option.noConfusion h
    | eSign =>
      simp only [jsonStep] at h
      split at h
      · next hd =>
        injection h with h2
        subst h2
        exact master_plain _ stk _ _ (digit_char_facts c hd) rfl rfl rfl
      · exact Option.noConfusion h
    | expn =>
      simp only [jsonStep] at h
      split at h
      · next hd =>
        injection h with h2
        subst h2
        exact master_plain _ stk _ _ (digit_char_facts c hd) rfl rfl rfl
      · exact stepAfterVal_master _ stk c st2 rfl h

theorem stepValStart_good (stk : List JFrame) (c : Char) (st2 : JState)
    (h : stepValStart stk c = some st2) : goodMode st2.mode = true := by
  unfold stepValStart at h
  split at h
  · injection h with h2; subst h2; rfl
  · split at h
    · injection h with h2; subst h2; rfl
    · split at h
      · injection h with h2; subst h2; rfl
      · split at h
        · injection h with h2; subst h2; rfl
        · split at h
          · injection h with h2; subst h2; rfl
          · split at h
            · injection h with h2; subst h2; rfl
            · split at h
              · injection h with h2; subst h2; rfl
              · split at h
                · injection h with h2; subst h2; rfl
                · split at h
                  · injection h with h2; subst h2; rfl
                  · exact Option.noConfusion h

theorem stepAfterVal_good (stk : List JFrame) (c : Char) (st2 : JState)
    (h : stepAfterVal stk c = some st2) : goodMode st2.mode = true := by
  unfold stepAfterVal at h
  split at h
  · injection h with h2; subst h2; rfl
  · split at h
    · split at h
      · injection h with h2; subst h2; rfl
      · injection h with h2; subst h2; rfl
      · exact Option.noConfusion h
    · split at h
      · split at h
        · injection h with h2; subst h2; rfl
        · exact Option.noConfusion h
      · split at h
        · split at h
          · injection h with h2; subst h2; rfl
          · exact Option.noConfusion h
        · exact Option.noConfusion h

theorem jsonStep_good (mo : JMode) (stk : List JFrame) (c : Char) (st2 : JState)
    (hgood : goodMode mo = true) (h : jsonStep ⟨mo, stk⟩ c = some st2) :
    goodMode st2.mode = true := by
  cases mo with
  | lit rest =>
    simp only [goodMode, goodLit, decide_eq_true_eq] at hgood
    rcases hgood with rfl | rfl | rfl | rfl | rfl | rfl | rfl | rfl | rfl <;>
      (simp only [jsonStep] at h
       split at h
       · first
         | (rw [if_neg (by decide)] at h; injection h with h2; subst h2; rfl)
         | (rw [if_pos (by decide)] at h; injection h with h2; subst h2; rfl)
       · exact Option.noConfusion h)
  | str k =>
    simp only [jsonStep] at h
    split at h
    · injection h with h2; subst h2; cases k <;> rfl
    · split at h
      · injection h with h2; subst h2; rfl
      · split at h
        · exact Option.noConfusion h
        · injection h with h2; subst h2; rfl
  | num ns =>
    cases ns with
    | neg =>
      simp only [jsonStep] at h
      split at h
      · injection h with h2; subst h2; rfl
      · split at h
        · injection h with h2; subst h2; rfl
        · exact Option.noConfusion h
    | zero =>
      simp only [jsonStep] at h
      split at h
      · injection h with h2; subst h2; rfl
      · split at h
        · injection h with h2; subst h2; rfl
        · exact stepAfterVal_good stk c st2 h
    | intg =>
      simp only [jsonStep] at h
      split at h
      · injection h with h2; subst h2; rfl
      · split at h
        · injection h with h2; subst h2; rfl
        · split at h
          · injection h with h2; subst h2; rfl
          · exact stepAfterVal_good stk c st2 h
    | dot =>
      simp only [jsonStep] at h
      split at h
      · injection h with h2; subst h2; rfl
      · exact Option.noConfusion h
    | frac =>
      simp only [jsonStep] at h
      split at h
      · injection h with h2; subst h2; rfl
      · split at h
        · injection h with h2; subst h2; rfl
        · exact stepAfterVal_good stk c st2 h
    | e =>
      simp only [jsonStep] at h
      split at h
      · injection h with h2; subst h2; rfl
      · split at h
        · injection h with h2; subst h2; rfl
        · exact Option.noConfusion h
    | eSign =>
      simp only [jsonStep] at h
      split at h
      · injection h with h2; subst h2; rfl
      · exact Option.noConfusion h
    | expn =>
      simp only [jsonStep] at h
      split at h
      · injection h with h2; subst h2; rfl
      · exact stepAfterVal_good stk c st2 h
  | val =>
    simp only [jsonStep] at h
    split at h
    · injection h with h2; subst h2; rfl
    · exact stepValStart_good stk c st2 h
  | arrFirst =>
    simp only [jsonStep] at h
    split at h
    · injection h with h2; subst h2; rfl
    · split at h
      · split at h
        · injection h with h2; subst h2; rfl
        · exact Option.noConfusion h
      · exact stepValStart_good stk c st2 h
  | objFirst =>
    simp only [jsonStep] at h
    split at h
    · injection h with h2; subst h2; rfl
    · split at h
      · injection h with h2; subst h2; rfl
      · split at h
        · split at h
          · injection h with h2; subst h2; rfl
          · exact Option.noConfusion h
        · exact Option.noConfusion h
  | objKey =>
    simp only [jsonStep] at h
    split at h
    · injection h with h2; subst h2; rfl
    · split at h
      · injection h with h2; subst h2; rfl
      · exact Option.noConfusion h
  | afterKey =>
    simp only [jsonStep] at h
    split at h
    · injection h with h2; subst h2; rfl
    · split at h
      · injection h with h2; subst h2; rfl
      · exact Option.noConfusion h
  | afterVal =>
    simp only [jsonStep] at h
    exact stepAfterVal_good stk c st2 h
  | strEsc k =>
    simp only [jsonStep] at h
    split at h
    · injection h with h2; subst h2; rfl
    · split at h
      · injection h with h2; subst h2; rfl
      · exact Option.noConfusion h
  | strEscU k j =>
    simp only [jsonStep] at h
    split at h
    · split at h
      · exact Option.noConfusion h
      · injection h with h2; subst h2; rfl
      · injection h with h2; subst h2; rfl
    · exact Option.noConfusion h

theorem stAt_good (j : List Char) (hrun : jsonRunFrom jinit j ≠ none) :
    ∀ p, p ≤ j.length → goodMode (stAt j p).mode = true := by
  intro p
  induction p with
  | zero => intro _; rfl
  | succ q ih =>
    intro hq
    have hstep := stAt_step j hrun q (by omega)
    exact jsonStep_good _ _ _ _ (ih (by omega)) hstep

theorem diffMerge_atomic_witness :
    (handleDiffMerge db7 9 exec7
        { addAllErr := none, commitErr := none, mergeErr := some "conflict"
          removeErr := none, deleteBranchErr := none }).1 = db7
    ∧ (handleDiffMerge db7 9 exec7
        { addAllErr := none, commitErr := none, mergeErr := some "conflict"
          removeErr := none, deleteBranchErr := none }).2 ≠ none :=
  (diffMerge_atomic db7 9 exec7 _).1 (Or.inr (Or.inr (by decide)))


/-- Restatement of the master step lemma for a bundled source state. -/
theorem jsonStep_facts (st1 : JState) (c : Char) (st2 : JState)
    (hgood : goodMode st1.mode = true) (h : jsonStep st1 c = some st2) :
    StepFacts st1.mode st1.stack c st2 := by
  cases st1 with
  | mk mo stk => exact jsonStep_master mo stk c st2 hgood h

/-- Once the scanner has consumed a complete top-level value, only
whitespace keeps the run alive, and the state does not change. -/
theorem emptyAbsorb (c : Char) (st2 : JState)
    (h : jsonStep ⟨.afterVal, []⟩ c = some st2) :
    st2 = ⟨.afterVal, []⟩ ∧ isJSONWS c = true := by
  simp only [jsonStep, stepAfterVal] at h
  split at h
  · next hws =>
    injection h with h2
    exact ⟨h2.symm, hws⟩
  · split at h
    · exact Option.noConfusion h
    · split at h
      · exact Option.noConfusion h
      · split at h
        · exact Option.noConfusion h
        · exact Option.noConfusion h

/-- Prepending to a nonempty list keeps its last element. -/
theorem getLast_cons_ne_nil {A : Type} (a : A) (l : List A) (h : l ≠ []) :
    (a :: l).getLast? = l.getLast? := by
  cases l with
  | nil => exact absurd rfl h
  | cons b t => simp [List.getLast?_cons_cons]

/-- A list whose last element is `T` contains `T` at least once. -/
theorem count_pos_of_getLast (l : List JFrame) (T : JFrame)
    (h : l.getLast? = some T) : 0 < l.count T := by
  have hne : l ≠ [] := by rintro rfl; simp at h
  have := List.getLast?_eq_getLast l hne
  rw [this] at h
  injection h with h2
  rw [← h2]
  exact List.count_pos_iff.mpr (List.getLast_mem hne)

/-- Reading the last element through `getD`. -/
theorem getD_of_getLast (l : List Char) (a : Char) (h : l.getLast? = some a) :
    l.getD (l.length - 1) ' ' = a := by
  rw [List.getLast?_eq_getElem?] at h
  simp [List.getD_eq_getElem?_getD, h]

/-- Reading the first element through `getD`. -/
theorem getD_of_head (l : List Char) (a : Char) (h : l.head? = some a) :
    l.getD 0 ' ' = a := by
  cases l with
  | nil => simp at h
  | cons b t => simpa using h

/-- Accepting states have an empty stack and are outside any string. -/
theorem jsonAccept_facts (st : JState) (h : jsonAccept st = true) :
    st.stack = [] ∧ inStrMode st.mode = false := by
  simp only [jsonAccept, Bool.and_eq_true, decide_eq_true_eq] at h
  refine ⟨h.1, ?_⟩
  have h2 := h.2
  cases hm : st.mode <;> rw [hm] at h2 <;> first
    | rfl
    | exact absurd h2 (by simp)

/-- Componentwise characterisation of the empty absorbing state. -/
theorem jstate_ext (st : JState) (hm : st.mode = .afterVal) (hs : st.stack = []) :
    st = ⟨.afterVal, []⟩ := by
  cases st with
  | mk mo stk =>
    simp only at hm hs
    rw [hm, hs]

/-- Stack-shape invariant of a run that starts at an opener: at every
intermediate point the bottom frame is still the opener's frame, unless the
top-level value has already closed and the state is the empty absorbing
one. -/
theorem stack_inv_aux (j : List Char) (closeC openC : Char) (T : JFrame)
    (hbp : BracketPair closeC openC T)
    (hrun : jsonRunFrom jinit j ≠ none)
    (hhead : j.getD 0 ' ' = openC)
    (hlen : 1 ≤ j.length) :
    ∀ p, 1 ≤ p → p ≤ j.length →
      (stAt j p).stack.getLast? = some T ∨ stAt j p = ⟨.afterVal, []⟩ := by
  intro p
  induction p with
  | zero => intro h0 _; omega
  | succ q ih =>
    intro _ hq1
    by_cases hq0 : q = 0
    · subst hq0
      left
      have htake : j.take 1 = [j.getD 0 ' '] := by
        have := take_succ_getD j 0 (by omega)
        simpa using this
      unfold stAt
      rw [htake, hhead]
      rcases hbp with ⟨_, rfl, rfl⟩ | ⟨_, rfl, rfl⟩
      · rfl
      · rfl
    · have hqq : 1 ≤ q := by omega
      rcases ih hqq (by omega) with hleft | hright
      · have hstep := stAt_step j hrun q (by omega)
        have hsf := jsonStep_facts (stAt j q) (j.getD q ' ') (stAt j (q + 1))
          (stAt_good j hrun q (by omega)) hstep
        obtain ⟨f1, f2, f3, _, _, _⟩ := hsf
        set c := j.getD q ' ' with hc
        by_cases hstr : inStrMode (stAt j q).mode = true
        · left
          rw [(f3 hstr).1]
          exact hleft
        · rw [Bool.not_eq_true] at hstr
          by_cases hcq : c = '"'
          · left
            rw [(f2 hstr hcq).2]
            exact hleft
          · obtain ⟨g1, g2, g3, g4, g5, _⟩ := f1 hstr hcq
            have hne : (stAt j q).stack ≠ [] := by
              rintro hnil; rw [hnil] at hleft; simp at hleft
            by_cases hc1 : c = '{'
            · left
              rw [g1 hc1, getLast_cons_ne_nil _ _ hne]
              exact hleft
            · by_cases hc2 : c = '['
              · left
                rw [g2 hc2, getLast_cons_ne_nil _ _ hne]
                exact hleft
              · by_cases hc3 : c = '}'
                · obtain ⟨hpop, hmode⟩ := g3 hc3
                  rcases hs2 : (stAt j (q + 1)).stack with _ | ⟨f, rest⟩
                  · right
                    exact jstate_ext _ hmode hs2
                  · left
                    rw [hs2] at hpop
                    rw [hpop, List.getLast?_cons_cons] at hleft
                    exact hleft
                · by_cases hc4 : c = ']'
                  · obtain ⟨hpop, hmode⟩ := g4 hc4
                    rcases hs2 : (stAt j (q + 1)).stack with _ | ⟨f, rest⟩
                    · right
                      exact jstate_ext _ hmode hs2
                    · left
                      rw [hs2] at hpop
                      rw [hpop, List.getLast?_cons_cons] at hleft
                      exact hleft
                  · left
                    rw [g5 hc1 hc2 hc3 hc4]
                    exact hleft
      · right
        have hstep := stAt_step j hrun q (by omega)
        rw [hright] at hstep
        exact (emptyAbsorb _ _ hstep).1

/-- Once the run reaches the empty absorbing state it stays there. -/
theorem absorb_chain (j : List Char) (hrun : jsonRunFrom jinit j ≠ none)
    (p : Nat) (hp : stAt j p = ⟨.afterVal, []⟩) :
    ∀ r, p ≤ r → r ≤ j.length → stAt j r = ⟨.afterVal, []⟩ := by
  intro r
  induction r with
  | zero => intro h1 _; have : p = 0 := by omega
            rw [← this]; exact hp
  | succ q ih =>
    intro h1 h2
    by_cases hpq : p = q + 1
    · rw [← hpq]; exact hp
    · have hq := ih (by omega) (by omega)
      have hstep := stAt_step j hrun q (by omega)
      rw [hq] at hstep
      exact (emptyAbsorb _ _ hstep).1

/-- Bottom-frame invariant: strictly before the final closer, the stack
always retains the opener frame at its bottom. -/
theorem stack_bottom (j : List Char) (closeC openC : Char) (T : JFrame)
    (hbp : BracketPair closeC openC T)
    (hrun : jsonRunFrom jinit j ≠ none)
    (hhead : j.getD 0 ' ' = openC)
    (hlast : j.getD (j.length - 1) ' ' = closeC)
    (hlen : 1 ≤ j.length) :
    ∀ p, 1 ≤ p → p ≤ j.length - 1 → (stAt j p).stack.getLast? = some T := by
  intro p hp1 hp2
  rcases stack_inv_aux j closeC openC T hbp hrun hhead hlen p hp1 (by omega)
    with hleft | hright
  · exact hleft
  · exfalso
    have habs := absorb_chain j hrun p hright (j.length - 1) hp2 (by omega)
    have hstep := stAt_step j hrun (j.length - 1) (by omega)
    rw [habs, hlast] at hstep
    have hws := (emptyAbsorb _ _ hstep).2
    rcases hbp with ⟨rfl, _, _⟩ | ⟨rfl, _, _⟩
    · exact absurd hws (by decide)
    · exact absurd hws (by decide)



/-- Unfolding equation for the backslash-run counter. -/
theorem backslashRun_succ (text : List Char) (p : Nat) :
    backslashRun text (p + 1)
      = if text.getD p ' ' == '\\' then backslashRun text p + 1 else 0 := rfl

/-- A position whose state is outside any string is never escaped. -/
theorem nonstr_unescaped (j : List Char) (hrun : jsonRunFrom jinit j ≠ none) :
    ∀ q, q ≤ j.length → inStrMode (stAt j q).mode = false → isEscaped j q = false := by
  intro q hq hns
  cases q with
  | zero => rfl
  | succ q' =>
    by_cases hb : j.getD q' ' ' = '\\'
    · exfalso
      have hstep := stAt_step j hrun q' (by omega)
      have hsf := jsonStep_facts _ _ _ (stAt_good j hrun q' (by omega)) hstep
      have h6 := hsf.2.2.2.2.2
      rw [h6 hb] at hns
      exact Bool.noConfusion hns
    · have hbeq : (j.getD q' ' ' == '\\') = false := beq_eq_false_iff_ne.mpr hb
      have hrunq : backslashRun j (q' + 1) = 0 := by
        rw [backslashRun_succ, hbeq]
        simp
      simp [isEscaped, hrunq]

/-- Escape parity: at a `str` state the current position is unescaped, at a
`strEsc` state it is escaped. -/
theorem str_parity (j : List Char) (hrun : jsonRunFrom jinit j ≠ none) :
    ∀ q, q ≤ j.length →
      (∀ k, (stAt j q).mode = .str k → isEscaped j q = false)
      ∧ (∀ k, (stAt j q).mode = .strEsc k → isEscaped j q = true) := by
  intro q
  induction q with
  | zero =>
    intro _
    constructor
    · intro k hk
      rw [stAt_zero] at hk
      exact JMode.noConfusion hk
    · intro k hk
      rw [stAt_zero] at hk
      exact JMode.noConfusion hk
  | succ q' ih =>
    intro hq
    have hih := ih (by omega)
    have hstep := stAt_step j hrun q' (by omega)
    have hsf := jsonStep_facts _ _ _ (stAt_good j hrun q' (by omega)) hstep
    obtain ⟨_, _, _, h4, h5, _⟩ := hsf
    constructor
    · intro k hk
      by_cases hb : j.getD q' ' ' = '\\'
      · have hprev := h5 k hk hb
        have hesc := hih.2 k hprev
        have hbeq : (j.getD q' ' ' == '\\') = true := beq_iff_eq.mpr hb
        have hrunq : backslashRun j (q' + 1) = backslashRun j q' + 1 := by
          rw [backslashRun_succ, hbeq]
          simp
        have hodd : backslashRun j q' % 2 ≠ 0 := by
          simpa [isEscaped, bne_iff_ne] using hesc
        have h2 : (backslashRun j q' + 1) % 2 = 0 := by omega
        simp only [isEscaped, hrunq, h2]
        rfl
      · have hbeq : (j.getD q' ' ' == '\\') = false := beq_eq_false_iff_ne.mpr hb
        have hrunq : backslashRun j (q' + 1) = 0 := by
          rw [backslashRun_succ, hbeq]
          simp
        simp [isEscaped, hrunq]
    · intro k hk
      obtain ⟨hprev, hb⟩ := h4 k hk
      have heven := hih.1 k hprev
      have hbeq : (j.getD q' ' ' == '\\') = true := beq_iff_eq.mpr hb
      have hrunq : backslashRun j (q' + 1) = backslashRun j q' + 1 := by
        rw [backslashRun_succ, hbeq]
        simp
      have hz : backslashRun j q' % 2 = 0 := by simpa [isEscaped] using heven
      have h2 : (backslashRun j q' + 1) % 2 = 1 := by omega
      simp only [isEscaped, hrunq, h2]
      rfl

/-- Unfolding equation for one backward-scan step. -/
theorem scanCharStep_eq (text : List Char) (cl op : Char) (i : Nat) (d : Int) (b : Bool) :
    scanCharStep text cl op i d b =
      (if b then
        (if text.getD i ' ' == '"' && !isEscaped text i then ScanRes.next d false
         else ScanRes.next d true)
      else if text.getD i ' ' == '"' && !isEscaped text i then ScanRes.next d true
      else
        if (if text.getD i ' ' == cl then d + 1
            else if text.getD i ' ' == op then d - 1 else d) == 0 then ScanRes.hit
        else ScanRes.next
          (if text.getD i ' ' == cl then d + 1
           else if text.getD i ' ' == op then d - 1 else d) false) := rfl

/-- Inside a string, a character that is not an unescaped quote keeps the
backward scan in string mode with unchanged depth. -/
theorem scanCharStep_str_stay (text : List Char) (cl op : Char) (i : Nat) (d : Int)
    (h : (text.getD i ' ' == '"' && !isEscaped text i) = false) :
    scanCharStep text cl op i d true = .next d true := by
  rw [scanCharStep_eq]
  simp only [h]
  simp

/-- Inside a string, an unescaped quote leaves string mode. -/
theorem scanCharStep_str_close (text : List Char) (cl op : Char) (i : Nat) (d : Int)
    (h : (text.getD i ' ' == '"' && !isEscaped text i) = true) :
    scanCharStep text cl op i d true = .next d false := by
  rw [scanCharStep_eq]
  simp only [h]
  simp

/-- Outside a string, an unescaped quote enters string mode. -/
theorem scanCharStep_quote_open (text : List Char) (cl op : Char) (i : Nat) (d : Int)
    (h : (text.getD i ' ' == '"' && !isEscaped text i) = true) :
    scanCharStep text cl op i d false = .next d true := by
  rw [scanCharStep_eq]
  simp only [h]
  simp

/-- Outside a string, the closer bumps the depth. -/
theorem scanCharStep_close (text : List Char) (cl op : Char) (i : Nat) (d : Int)
    (h : (text.getD i ' ' == '"' && !isEscaped text i) = false)
    (hc : (text.getD i ' ' == cl) = true)
    (hnz : d + 1 ≠ 0) :
    scanCharStep text cl op i d false = .next (d + 1) false := by
  rw [scanCharStep_eq]
  simp only [h, hc]
  simp [hnz]

/-- Outside a string, the opener drops the depth; no hit when it stays
nonzero. -/
theorem scanCharStep_open_next (text : List Char) (cl op : Char) (i : Nat) (d : Int)
    (h : (text.getD i ' ' == '"' && !isEscaped text i) = false)
    (hc : (text.getD i ' ' == cl) = false)
    (ho : (text.getD i ' ' == op) = true)
    (hnz : d - 1 ≠ 0) :
    scanCharStep text cl op i d false = .next (d - 1) false := by
  rw [scanCharStep_eq]
  simp only [h, hc, ho]
  simp [hnz]

/-- Outside a string, the opener that returns the depth to zero yields the
candidate start. -/
theorem scanCharStep_open_hit (text : List Char) (cl op : Char) (i : Nat) (d : Int)
    (h : (text.getD i ' ' == '"' && !isEscaped text i) = false)
    (hc : (text.getD i ' ' == cl) = false)
    (ho : (text.getD i ' ' == op) = true)
    (hz : d - 1 = 0) :
    scanCharStep text cl op i d false = .hit := by
  rw [scanCharStep_eq]
  simp only [h, hc, ho]
  simp [hz]

/-- Outside a string, any other character leaves the scan state unchanged
when the depth is nonzero. -/
theorem scanCharStep_plain (text : List Char) (cl op : Char) (i : Nat) (d : Int)
    (h : (text.getD i ' ' == '"' && !isEscaped text i) = false)
    (hc : (text.getD i ' ' == cl) = false)
    (ho : (text.getD i ' ' == op) = false)
    (hnz : d ≠ 0) :
    scanCharStep text cl op i d false = .next d false := by
  rw [scanCharStep_eq]
  simp only [h, hc, ho]
  simp [hnz]

/-- At the opening bracket the backward scan hits: position 0 is the
candidate start. -/
theorem march_hit (j : List Char) (closeC openC : Char) (T : JFrame)
    (hbp : BracketPair closeC openC T)
    (hhead : j.getD 0 ' ' = openC) (hlen : 1 ≤ j.length) :
    scanCharStep j closeC openC 0 ((stAt j 1).stack.count T : Int)
      (inStrMode (stAt j 1).mode) = .hit := by
  have htake : j.take 1 = [j.getD 0 ' '] := by
    simpa using take_succ_getD j 0 (by omega)
  rcases hbp with ⟨rfl, rfl, rfl⟩ | ⟨rfl, rfl, rfl⟩
  · have hst : stAt j 1 = ⟨.objFirst, [.obj]⟩ := by
      unfold stAt
      rw [htake, hhead]
      rfl
    rw [hst]
    show scanCharStep j '}' '{' 0 1 false = ScanRes.hit
    rw [scanCharStep_eq]
    simp only [hhead, show isEscaped j 0 = false from rfl]
    decide
  · have hst : stAt j 1 = ⟨.arrFirst, [.arr]⟩ := by
      unfold stAt
      rw [htake, hhead]
      rfl
    rw [hst]
    show scanCharStep j ']' '[' 0 1 false = ScanRes.hit
    rw [scanCharStep_eq]
    simp only [hhead, show isEscaped j 0 = false from rfl]
    decide


/-- One backward-scan step over the body of the value mirrors the forward
scanner: the depth tracks the count of the searched frame on the forward
stack and the string flag tracks the forward string mode. -/
theorem march_step (j : List Char) (closeC openC : Char) (T : JFrame)
    (hbp : BracketPair closeC openC T)
    (hrun : jsonRunFrom jinit j ≠ none)
    (q : Nat) (hq : q < j.length)
    (hbottom : (stAt j q).stack.getLast? = some T) :
    scanCharStep j closeC openC q ((stAt j (q + 1)).stack.count T : Int)
      (inStrMode (stAt j (q + 1)).mode)
      = .next ((stAt j q).stack.count T : Int) (inStrMode (stAt j q).mode) := by
  have hstep := stAt_step j hrun q (by omega)
  have hsf := jsonStep_facts _ _ _ (stAt_good j hrun q (by omega)) hstep
  obtain ⟨f1, f2, f3, h4, h5, h6⟩ := hsf
  have hpos : 0 < (stAt j q).stack.count T := count_pos_of_getLast _ _ hbottom
  by_cases hB : inStrMode (stAt j (q + 1)).mode = true
  · rw [hB]
    by_cases hstr : inStrMode (stAt j q).mode = true
    · obtain ⟨hstk, halt⟩ := f3 hstr
      rw [hstk, hstr]
      rcases halt with ⟨hcq, _, hB2⟩ | ⟨hcq, ⟨k, hmo⟩, _⟩ | ⟨hcq, _⟩
      · rw [hB] at hB2
        exact Bool.noConfusion hB2
      · have hesc := (str_parity j hrun q (by omega)).2 k hmo
        have hcond : (j.getD q ' ' == '"' && !isEscaped j q) = false := by
          rw [beq_iff_eq.mpr hcq, hesc]
          rfl
        exact scanCharStep_str_stay j closeC openC q _ hcond
      · have hcond : (j.getD q ' ' == '"' && !isEscaped j q) = false := by
          rw [beq_eq_false_iff_ne.mpr hcq]
          rfl
        exact scanCharStep_str_stay j closeC openC q _ hcond
    · rw [Bool.not_eq_true] at hstr
      by_cases hcq : j.getD q ' ' = '"'
      · obtain ⟨_, hstk⟩ := f2 hstr hcq
        rw [hstk, hstr]
        have hesc := nonstr_unescaped j hrun q (by omega) hstr
        have hcond : (j.getD q ' ' == '"' && !isEscaped j q) = true := by
          rw [beq_iff_eq.mpr hcq, hesc]
          rfl
        exact scanCharStep_str_close j closeC openC q _ hcond
      · obtain ⟨_, _, _, _, _, g6⟩ := f1 hstr hcq
        rw [g6] at hB
        exact Bool.noConfusion hB
  · rw [Bool.not_eq_true] at hB
    rw [hB]
    by_cases hstr : inStrMode (stAt j q).mode = true
    · obtain ⟨hstk, halt⟩ := f3 hstr
      rw [hstk, hstr]
      rcases halt with ⟨hcq, ⟨k, hmo⟩, _⟩ | ⟨_, _, hB2⟩ | ⟨_, hB2⟩
      · have hesc := (str_parity j hrun q (by omega)).1 k hmo
        have hcond : (j.getD q ' ' == '"' && !isEscaped j q) = true := by
          rw [beq_iff_eq.mpr hcq, hesc]
          rfl
        exact scanCharStep_quote_open j closeC openC q _ hcond
      · rw [hB] at hB2
        exact Bool.noConfusion hB2
      · rw [hB] at hB2
        exact Bool.noConfusion hB2
    · rw [Bool.not_eq_true] at hstr
      rw [hstr]
      by_cases hcq : j.getD q ' ' = '"'
      · obtain ⟨hB2, _⟩ := f2 hstr hcq
        rw [hB] at hB2
        exact Bool.noConfusion hB2
      · obtain ⟨g1, g2, g3, g4, g5, _⟩ := f1 hstr hcq
        have hquote : (j.getD q ' ' == '"' && !isEscaped j q) = false := by
          rw [beq_eq_false_iff_ne.mpr hcq]
          rfl
        rcases hbp with ⟨rfl, rfl, rfl⟩ | ⟨rfl, rfl, rfl⟩
        · by_cases hc1 : j.getD q ' ' = '}'
          · obtain ⟨hpop, _⟩ := g3 hc1
            have hrel : (stAt j q).stack.count JFrame.obj
                = (stAt j (q + 1)).stack.count JFrame.obj + 1 := by
              rw [hpop, List.count_cons_self]
            rw [scanCharStep_close j '}' '{' q _ hquote (beq_iff_eq.mpr hc1) (by omega)]
            congr 1
            omega
          · by_cases hc2 : j.getD q ' ' = '{'
            · have hpush := g1 hc2
              have hrel : (stAt j (q + 1)).stack.count JFrame.obj
                  = (stAt j q).stack.count JFrame.obj + 1 := by
                rw [hpush, List.count_cons_self]
              rw [scanCharStep_open_next j '}' '{' q _ hquote
                (beq_eq_false_iff_ne.mpr hc1) (beq_iff_eq.mpr hc2) (by omega)]
              congr 1
              omega
            · by_cases hc3 : j.getD q ' ' = ']'
              · obtain ⟨hpop, _⟩ := g4 hc3
                have hrel : (stAt j q).stack.count JFrame.obj
                    = (stAt j (q + 1)).stack.count JFrame.obj := by
                  rw [hpop, List.count_cons]
                  simp
                rw [scanCharStep_plain j '}' '{' q _ hquote
                  (beq_eq_false_iff_ne.mpr hc1) (beq_eq_false_iff_ne.mpr hc2) (by omega)]
                congr 1
                omega
              · by_cases hc4 : j.getD q ' ' = '['
                · have hpush := g2 hc4
                  have hrel : (stAt j (q + 1)).stack.count JFrame.obj
                      = (stAt j q).stack.count JFrame.obj := by
                    rw [hpush, List.count_cons]
                    simp
                  rw [scanCharStep_plain j '}' '{' q _ hquote
                    (beq_eq_false_iff_ne.mpr hc1) (beq_eq_false_iff_ne.mpr hc2) (by omega)]
                  congr 1
                  omega
                · have heq := g5 hc2 hc4 hc1 hc3
                  rw [heq]
                  exact scanCharStep_plain j '}' '{' q _ hquote
                    (beq_eq_false_iff_ne.mpr hc1) (beq_eq_false_iff_ne.mpr hc2) (by omega)
        · by_cases hc1 : j.getD q ' ' = ']'
          · obtain ⟨hpop, _⟩ := g4 hc1
            have hrel : (stAt j q).stack.count JFrame.arr
                = (stAt j (q + 1)).stack.count JFrame.arr + 1 := by
              rw [hpop, List.count_cons_self]
            rw [scanCharStep_close j ']' '[' q _ hquote (beq_iff_eq.mpr hc1) (by omega)]
            congr 1
            omega
          · by_cases hc2 : j.getD q ' ' = '['
            · have hpush := g2 hc2
              have hrel : (stAt j (q + 1)).stack.count JFrame.arr
                  = (stAt j q).stack.count JFrame.arr + 1 := by
                rw [hpush, List.count_cons_self]
              rw [scanCharStep_open_next j ']' '[' q _ hquote
                (beq_eq_false_iff_ne.mpr hc1) (beq_iff_eq.mpr hc2) (by omega)]
              congr 1
              omega
            · by_cases hc3 : j.getD q ' ' = '}'
              · obtain ⟨hpop, _⟩ := g3 hc3
                have hrel : (stAt j q).stack.count JFrame.arr
                    = (stAt j (q + 1)).stack.count JFrame.arr := by
                  rw [hpop, List.count_cons]
                  simp
                rw [scanCharStep_plain j ']' '[' q _ hquote
                  (beq_eq_false_iff_ne.mpr hc1) (beq_eq_false_iff_ne.mpr hc2) (by omega)]
                congr 1
                omega
              · by_cases hc4 : j.getD q ' ' = '{'
                · have hpush := g1 hc4
                  have hrel : (stAt j (q + 1)).stack.count JFrame.arr
                      = (stAt j q).stack.count JFrame.arr := by
                    rw [hpush, List.count_cons]
                    simp
                  rw [scanCharStep_plain j ']' '[' q _ hquote
                    (beq_eq_false_iff_ne.mpr hc1) (beq_eq_false_iff_ne.mpr hc2) (by omega)]
                  congr 1
                  omega
                · have heq := g5 hc4 hc2 hc3 hc1
                  rw [heq]
                  exact scanCharStep_plain j ']' '[' q _ hquote
                    (beq_eq_false_iff_ne.mpr hc1) (beq_eq_false_iff_ne.mpr hc2) (by omega)



/-- Unfolding equation of the backward scan at a positive index. -/
theorem scanBack_succ (text : List Char) (cl op : Char) (i : Nat) (d : Int) (s : Bool) :
    scanBack text cl op (i + 1) d s
      = match scanCharStep text cl op (i + 1) d s with
        | .hit => some (i + 1)
        | .next d2 s2 => scanBack text cl op i d2 s2 := rfl

/-- Unfolding equation of the backward scan at index zero. -/
theorem scanBack_zero (text : List Char) (cl op : Char) (d : Int) (s : Bool) :
    scanBack text cl op 0 d s
      = match scanCharStep text cl op 0 d s with
        | .hit => some 0
        | .next _ _ => none := rfl

/-- Running the backward scan from any interior position of the value with
the matching forward depth and string flag reaches the opening bracket. -/
theorem scanBack_inner (j : List Char) (closeC openC : Char) (T : JFrame)
    (hbp : BracketPair closeC openC T)
    (hrun : jsonRunFrom jinit j ≠ none)
    (hhead : j.getD 0 ' ' = openC)
    (hlast : j.getD (j.length - 1) ' ' = closeC)
    (hlen : 1 ≤ j.length) :
    ∀ q, 1 ≤ q → q ≤ j.length - 1 →
      scanBack j closeC openC q ((stAt j (q + 1)).stack.count T : Int)
        (inStrMode (stAt j (q + 1)).mode) = some 0 := by
  intro q
  induction q with
  | zero => intro h _; omega
  | succ q' ih =>
    intro _ hle
    have hb1 : (stAt j (q' + 1)).stack.getLast? = some T :=
      stack_bottom j closeC openC T hbp hrun hhead hlast hlen (q' + 1) (by omega) hle
    have hm := march_step j closeC openC T hbp hrun (q' + 1) (by omega) hb1
    rw [scanBack_succ, hm]
    by_cases h0 : q' = 0
    · subst h0
      have hh := march_hit j closeC openC T hbp hhead hlen
      show scanBack j closeC openC 0 _ _ = some 0
      rw [scanBack_zero, hh]
    · exact ih (by omega) (by omega)

/-- On a balanced valid JSON value the backward scan from the final closer
with depth 0 finds the opening bracket at index 0. -/
theorem scanBack_json (j : List Char) (closeC openC : Char) (T : JFrame)
    (hbp : BracketPair closeC openC T)
    (hvalid : jsonValid j = true)
    (hhead : j.getD 0 ' ' = openC)
    (hlast : j.getD (j.length - 1) ' ' = closeC)
    (hm2 : 2 ≤ j.length) :
    scanBack j closeC openC (j.length - 1) 0 false = some 0 := by
  obtain ⟨hrun, hacc⟩ := stAt_final j hvalid
  obtain ⟨hstk, hstr⟩ := jsonAccept_facts _ hacc
  have h := scanBack_inner j closeC openC T hbp hrun hhead hlast (by omega)
    (j.length - 1) (by omega) (le_refl _)
  have hsucc : j.length - 1 + 1 = j.length := by omega
  rw [hsucc, hstk, hstr] at h
  simpa using h



/-- Reading a character of the middle segment of a three-part
concatenation. -/
theorem getD_mid (pre j suf : List Char) (k : Nat) (hk : k < j.length) :
    (pre ++ j ++ suf).getD (pre.length + k) ' ' = j.getD k ' ' := by
  rw [List.append_assoc]
  have h1 : (pre ++ (j ++ suf)).getD (pre.length + k) ' '
      = (j ++ suf).getD (pre.length + k - pre.length) ' ' := by
    simp [List.getD_eq_getElem?_getD, List.getElem?_append_right (by omega : pre.length ≤ pre.length + k)]
  rw [h1, show pre.length + k - pre.length = k from by omega]
  simp [List.getD_eq_getElem?_getD, List.getElem?_append_left hk]

/-- The backslash run before an interior position of the middle segment is
not affected by the surrounding text, because the segment starts with a
non-backslash character. -/
theorem backslashRun_shift (s j : List Char) (P : Nat)
    (hchars : ∀ k, k < j.length → s.getD (P + k) ' ' = j.getD k ' ')
    (h0 : j.getD 0 ' ' ≠ '\\') :
    ∀ k, 1 ≤ k → k ≤ j.length → backslashRun s (P + k) = backslashRun j k := by
  intro k
  induction k with
  | zero => intro h _; omega
  | succ k' ih =>
    intro _ hk
    have hch : s.getD (P + k') ' ' = j.getD k' ' ' := hchars k' (by omega)
    rw [show P + (k' + 1) = P + k' + 1 from rfl, backslashRun_succ s (P + k'),
      backslashRun_succ j k', hch]
    by_cases h0' : k' = 0
    · subst h0'
      rw [beq_eq_false_iff_ne.mpr h0]
      simp
    · by_cases hbs : j.getD k' ' ' = '\\'
      · rw [beq_iff_eq.mpr hbs]
        simp [ih (by omega) (by omega)]
      · rw [beq_eq_false_iff_ne.mpr hbs]
        simp

/-- Escapedness agrees between the full text and the middle segment at its
interior positions. -/
theorem isEscaped_shift (s j : List Char) (P : Nat)
    (hchars : ∀ k, k < j.length → s.getD (P + k) ' ' = j.getD k ' ')
    (h0 : j.getD 0 ' ' ≠ '\\')
    (k : Nat) (hk1 : 1 ≤ k) (hk : k ≤ j.length) :
    isEscaped s (P + k) = isEscaped j k := by
  unfold isEscaped
  rw [backslashRun_shift s j P hchars h0 k hk1 hk]

/-- One backward-scan step agrees between the full text and the middle
segment at its interior positions. -/
theorem scanCharStep_shift (s j : List Char) (P : Nat) (cl op : Char)
    (hchars : ∀ k, k < j.length → s.getD (P + k) ' ' = j.getD k ' ')
    (h0 : j.getD 0 ' ' ≠ '\\')
    (k : Nat) (hk1 : 1 ≤ k) (hk : k < j.length) (d : Int) (b : Bool) :
    scanCharStep s cl op (P + k) d b = scanCharStep j cl op k d b := by
  rw [scanCharStep_eq, scanCharStep_eq, hchars k hk,
    isEscaped_shift s j P hchars h0 k hk1 (by omega)]

/-- A backward scan that stays inside the middle segment and hits its first
character transports along the embedding into the longer text. -/
theorem scanBack_shift (s j : List Char) (P : Nat) (cl op : Char)
    (hchars : ∀ k, k < j.length → s.getD (P + k) ' ' = j.getD k ' ')
    (h0 : j.getD 0 ' ' ≠ '\\') (h0q : j.getD 0 ' ' ≠ '"') (hlen : 1 ≤ j.length) :
    ∀ k, k ≤ j.length - 1 → ∀ d b, scanBack j cl op k d b = some 0 →
      scanBack s cl op (P + k) d b = some P := by
  intro k
  induction k with
  | zero =>
    intro _ d b h
    rw [scanBack_zero] at h
    rcases hsc : scanCharStep j cl op 0 d b with _ | ⟨d2, s2⟩
    · have hch0 : s.getD P ' ' = j.getD 0 ' ' := by simpa using hchars 0 (by omega)
      have hs : scanCharStep s cl op P d b = .hit := by
        have heq2 : scanCharStep s cl op P d b = scanCharStep j cl op 0 d b := by
          rw [scanCharStep_eq, scanCharStep_eq, hch0, beq_eq_false_iff_ne.mpr h0q]
          simp
        rw [heq2, hsc]
      show scanBack s cl op (P + 0) d b = some P
      rw [Nat.add_zero]
      cases P with
      | zero => rw [scanBack_zero, hs]
      | succ q => rw [scanBack_succ, hs]
    · rw [hsc] at h
      exact Option.noConfusion h
  | succ k' ih =>
    intro hk d b h
    rw [scanBack_succ] at h
    rcases hsc : scanCharStep j cl op (k' + 1) d b with _ | ⟨d2, s2⟩
    · rw [hsc] at h
      simp at h
    · rw [hsc] at h
      have hsh := scanCharStep_shift s j P cl op hchars h0 (k' + 1) (by omega)
        (by omega) d b
      rw [show P + (k' + 1) = P + k' + 1 from rfl] at hsh
      rw [show P + (k' + 1) = P + k' + 1 from rfl, scanBack_succ, hsh, hsc]
      exact ih (by omega) d2 s2 h

/-- The backward scan never returns an index beyond its starting point. -/
theorem scanBack_le (text : List Char) (cl op : Char) :
    ∀ i d b t, scanBack text cl op i d b = some t → t ≤ i := by
  intro i
  induction i with
  | zero =>
    intro d b t h
    rw [scanBack_zero] at h
    rcases hsc : scanCharStep text cl op 0 d b with _ | ⟨d2, s2⟩ <;> rw [hsc] at h
    · simp at h
      omega
    · exact Option.noConfusion h
  | succ i' ih =>
    intro d b t h
    rw [scanBack_succ] at h
    rcases hsc : scanCharStep text cl op (i' + 1) d b with _ | ⟨d2, s2⟩ <;> rw [hsc] at h
    · simp at h
      omega
    · have := ih d2 s2 t h
      omega

/-- Unfolding equation for one iteration of the outer extractor loop. -/
theorem tryExtractAt_eq (text : List Char) (e : Nat) :
    tryExtractAt text e =
      (if text.getD e ' ' == '}' || text.getD e ' ' == ']' then
        match scanBack text (text.getD e ' ')
            (if text.getD e ' ' == '}' then '{' else '[') e 0 false with
        | some i =>
          if jsonValid (sliceOf text i e) then some (sliceOf text i e) else none
        | none => none
      else none) := rfl

/-- If every slice ending at `e` fails validation, the outer loop rejects
position `e`. -/
theorem tryExtractAt_none (s : List Char) (e : Nat)
    (h : ∀ i, i ≤ e → jsonValid (sliceOf s i e) = false) :
    tryExtractAt s e = none := by
  rw [tryExtractAt_eq]
  split
  · rcases hsb : scanBack s (s.getD e ' ')
        (if s.getD e ' ' == '}' then '{' else '[') e 0 false with _ | i
    · rfl
    · have hle := scanBack_le s _ _ e 0 false i hsb
      show (if jsonValid (sliceOf s i e) = true then some (sliceOf s i e) else none) = none
      rw [h i hle]
      simp
  · rfl

/-- When position `e` holds a closer, the backward scan hits `i`, and the
slice validates, the outer loop returns that slice. -/
theorem tryExtractAt_close (s : List Char) (e : Nat) (cl opn : Char) (i : Nat)
    (hcl : s.getD e ' ' = cl)
    (hpair : (cl = '}' ∧ opn = '{') ∨ (cl = ']' ∧ opn = '['))
    (hsb : scanBack s cl opn e 0 false = some i)
    (hval : jsonValid (sliceOf s i e) = true) :
    tryExtractAt s e = some (sliceOf s i e) := by
  rw [tryExtractAt_eq, hcl]
  rcases hpair with ⟨rfl, rfl⟩ | ⟨rfl, rfl⟩
  · rw [if_pos (show (('}' == '}' || '}' == ']') = true) from rfl)]
    rw [show (if ('}' == '}' : Bool) then '{' else '[') = '{' from rfl]
    rw [hsb]
    show (if jsonValid (sliceOf s i e) = true then some (sliceOf s i e) else none)
      = some (sliceOf s i e)
    rw [hval]
    simp
  · rw [if_pos (show ((']' == '}' || ']' == ']') = true) from rfl)]
    rw [show (if (']' == '}' : Bool) then '{' else '[') = '[' from rfl]
    rw [hsb]
    show (if jsonValid (sliceOf s i e) = true then some (sliceOf s i e) else none)
      = some (sliceOf s i e)
    rw [hval]
    simp

/-- Unfolding equation for the outer extractor loop at a positive index. -/
theorem extractAux_succ (s : List Char) (e : Nat) :
    extractLastJSONAux s (e + 1)
      = match tryExtractAt s (e + 1) with
        | some cand => cand
        | none => extractLastJSONAux s e := rfl

/-- The outer loop skips a whole range of rejecting positions. -/
theorem extractAux_skip (s : List Char) :
    ∀ a b, b ≤ a → (∀ e, b < e → e ≤ a → tryExtractAt s e = none) →
      extractLastJSONAux s a = extractLastJSONAux s b := by
  intro a
  induction a with
  | zero =>
    intro b hb _
    have : b = 0 := by omega
    rw [this]
  | succ a' ih =>
    intro b hb h
    by_cases hba : b = a' + 1
    · rw [hba]
    · have hb' : b ≤ a' := by omega
      have hnone := h (a' + 1) (by omega) (by omega)
      rw [extractAux_succ, hnone]
      exact ih b hb' (fun e h1 h2 => h e h1 (by omega))

/-- A list with distinct first and last elements has length at least two. -/
theorem block_len2 (j : List Char) (a b : Char) (hne : a ≠ b)
    (hh : j.head? = some a) (hl : j.getLast? = some b) : 2 ≤ j.length := by
  rcases j with _ | ⟨x, _ | ⟨y, t⟩⟩
  · simp at hh
  · have h1 : x = a := by simpa using hh
    have h2 : x = b := by simpa using hl
    rw [h1] at h2
    exact absurd h2 hne
  · simp only [List.length_cons]
    omega



/-- C5 (amended): for `s = prefix ++ json ++ suffix` with `json` a balanced
valid JSON object or array, if no slice of `s` ending inside the suffix
parses as valid JSON, then `extractLastJSON` returns exactly `json`. -/
theorem extractLastJSON_amended (pre json suf : List Char)
    (hblock : isJSONBlock json = true)
    (hsuf : ∀ i, i < (pre ++ json ++ suf).length →
        ∀ e, e < (pre ++ json ++ suf).length →
          pre.length + json.length ≤ e →
          jsonValid (sliceOf (pre ++ json ++ suf) i e) = false) :
    extractLastJSON (pre ++ json ++ suf) = json := by
  simp only [isJSONBlock, Bool.and_eq_true, Bool.or_eq_true, beq_iff_eq] at hblock
  obtain ⟨hval, hbr⟩ := hblock
  obtain ⟨closeC, openC, T, hbp, hh, hl⟩ :
      ∃ cl op T, BracketPair cl op T
        ∧ json.head? = some op ∧ json.getLast? = some cl := by
    rcases hbr with ⟨h1, h2⟩ | ⟨h1, h2⟩
    · exact ⟨'}', '{', .obj, Or.inl ⟨rfl, rfl, rfl⟩, h1, h2⟩
    · exact ⟨']', '[', .arr, Or.inr ⟨rfl, rfl, rfl⟩, h1, h2⟩
  have hm2 : 2 ≤ json.length :=
    block_len2 json openC closeC
      (by rcases hbp with ⟨rfl, rfl, _⟩ | ⟨rfl, rfl, _⟩ <;> decide) hh hl
  have hheadD := getD_of_head json openC hh
  have hlastD := getD_of_getLast json closeC hl
  have h0bs : json.getD 0 ' ' ≠ '\\' := by
    rw [hheadD]
    rcases hbp with ⟨_, rfl, _⟩ | ⟨_, rfl, _⟩ <;> decide
  have h0q : json.getD 0 ' ' ≠ '"' := by
    rw [hheadD]
    rcases hbp with ⟨_, rfl, _⟩ | ⟨_, rfl, _⟩ <;> decide
  have hchars : ∀ k, k < json.length →
      (pre ++ json ++ suf).getD (pre.length + k) ' ' = json.getD k ' ' :=
    fun k hk => getD_mid pre json suf k hk
  have hsbj := scanBack_json json closeC openC T hbp hval hheadD hlastD hm2
  have hsbs := scanBack_shift (pre ++ json ++ suf) json pre.length closeC openC
    hchars h0bs h0q (by omega) (json.length - 1) (le_refl _) 0 false hsbj
  have hE : (pre ++ json ++ suf).getD (pre.length + (json.length - 1)) ' ' = closeC := by
    rw [hchars (json.length - 1) (by omega), hlastD]
  have hslice : sliceOf (pre ++ json ++ suf) pre.length
      (pre.length + (json.length - 1)) = json := by
    unfold sliceOf
    rw [show pre.length + (json.length - 1) + 1 - pre.length = json.length from by omega,
      List.append_assoc, List.drop_left, List.take_left]
  have htry : tryExtractAt (pre ++ json ++ suf)
      (pre.length + (json.length - 1)) = some json := by
    have h := tryExtractAt_close (pre ++ json ++ suf)
      (pre.length + (json.length - 1)) closeC openC pre.length hE
      (by rcases hbp with ⟨h1, h2, _⟩ | ⟨h1, h2, _⟩
          · exact Or.inl ⟨h1, h2⟩
          · exact Or.inr ⟨h1, h2⟩)
      hsbs (by rw [hslice]; exact hval)
    rw [hslice] at h
    exact h
  have hlen_s : (pre ++ json ++ suf).length
      = pre.length + json.length + suf.length := by
    simp
    omega
  have hnone : ∀ e, pre.length + (json.length - 1) < e →
      e ≤ (pre ++ json ++ suf).length - 1 →
      tryExtractAt (pre ++ json ++ suf) e = none := by
    intro e h1 h2
    apply tryExtractAt_none
    intro i hle
    apply hsuf
    · omega
    · omega
    · omega
  have hfin : extractLastJSONAux (pre ++ json ++ suf)
      ((pre ++ json ++ suf).length - 1) = json := by
    rw [extractAux_skip (pre ++ json ++ suf) ((pre ++ json ++ suf).length - 1)
      (pre.length + (json.length - 1)) (by omega)
      (fun e he1 he2 => hnone e he1 he2)]
    obtain ⟨e2, he2⟩ : ∃ e2, pre.length + (json.length - 1) = e2 + 1 :=
      ⟨pre.length + (json.length - 1) - 1, by omega⟩
    rw [he2, extractAux_succ, ← he2, htry]
  unfold extractLastJSON
  cases hsl : (pre ++ json ++ suf).length with
  | zero =>
    rw [hlen_s] at hsl
    omega
  | succ n =>
    show extractLastJSONAux (pre ++ json ++ suf) n = json
    rw [show n = (pre ++ json ++ suf).length - 1 from by omega]
    exact hfin

/-- C5 witness: on `"x[1]]"` with `json = "[1]"` and suffix `"]"` the
hypotheses hold and the extractor returns `[1]`. -/
theorem extractLastJSON_amended_witness :
    isJSONBlock "[1]".data = true
    ∧ extractLastJSON ("x".data ++ "[1]".data ++ "]".data) = "[1]".data :=
  ⟨by decide, extractLastJSON_amended "x".data "[1]".data "]".data (by decide)
    (by decide)⟩


end Bore
